import Mathlib

set_option maxRecDepth 40000

/-!
Shallow embedding of `binary-object.py`: a compact binary serialization
format built from a bit-addressable cursor (`BinaryWriter`/`BinaryReader`),
a chunked variable-length integer codec, a variable-width type-tag codec,
a string interning table, and recursive JSON/CSV/XML value codecs.

Conventions of the embedding:
* bytes are `Nat`s (callers keep them `< 256` exactly where the Python does);
* Python strings are represented by their UTF-8 byte sequences (`List Nat`);
  `bytes.decode('utf-8')` is modelled by an explicit strict UTF-8 validity
  check (`utf8Valid`);
* IEEE-754 doubles are carried as their 8 little-endian bytes, which is
  exactly what `struct.pack('<d', ...)`/`struct.unpack` move around;
* fallible reads return `Option`; a Python exception (IndexError,
  UnicodeDecodeError, struct.error, ValueError) is `none`;
* unbounded `while` loops are given explicit fuel that is always sufficient
  for the observable cases proved below.
-/

/-- State of `BinaryWriter`: output byte buffer `data`, pending sub-byte
bits `bits`, pending bit count `bit_shift`, index `bit_write_position` of
the in-progress partial byte, and the interning table `string_map`
represented in first-seen order (the index of a string is its position). -/
structure BinaryWriter where
  data : List Nat
  bits : Nat
  bitShift : Nat
  bitWritePos : Nat
  strings : List (List Nat)
  deriving Repr, DecidableEq

/-- A fresh `BinaryWriter()`. -/
def BinaryWriter.init : BinaryWriter := ⟨[], 0, 0, 0, []⟩

/-- `BinaryWriter.write_byte`. -/
def write_byte (w : BinaryWriter) (b : Nat) : BinaryWriter :=
  { w with data := w.data ++ [b] }

/-- `BinaryWriter.write_bytes`. -/
def write_bytes (w : BinaryWriter) (bs : List Nat) : BinaryWriter :=
  { w with data := w.data ++ bs }

/-- The `for i in range(num_bits//8)` loop of `write_bits`: append `n`
whole bytes of `value`, low byte first, returning the shifted-down rest. -/
def writeFull (w : BinaryWriter) : Nat → Nat → BinaryWriter × Nat
  | 0, value => (w, value)
  | n + 1, value => writeFull (write_byte w (value &&& 0xff)) n (value >>> 8)

/-- `BinaryWriter.write_bits`: whole bytes are appended directly; the
remaining 1–7 bits are merged into the pending partial byte, committing a
full byte (and starting a new placeholder for any carry) on overflow. -/
def write_bits (w : BinaryWriter) (numBits value : Nat) : BinaryWriter :=
  let p := writeFull w (numBits / 8) value
  let w := p.1
  let value := p.2
  let nb := numBits % 8
  if nb = 0 then w
  else
    let bits := w.bits ||| (value <<< w.bitShift)
    if w.bitShift = 0 then
      { w with bits := bits, bitWritePos := w.data.length,
               data := w.data ++ [0], bitShift := nb }
    else if w.bitShift + nb > 7 then
      let data := w.data.set w.bitWritePos (bits &&& 0xff)
      let bits := bits >>> 8
      let sh := w.bitShift + nb - 8
      if sh > 0 then
        { w with data := data ++ [0], bits := bits, bitShift := sh,
                 bitWritePos := data.length }
      else
        { w with data := data, bits := bits, bitShift := 0 }
    else
      { w with bits := bits, bitShift := w.bitShift + nb }

/-- `BinaryWriter.write_bit`. -/
def write_bit (w : BinaryWriter) (value : Nat) : BinaryWriter :=
  write_bits w 1 value

/-- The `while True` loop of `BinaryWriter.write_integer`, fuelled (via
`Nat.rec` so that large fuel literals reduce cheaply); each iteration
emits a 2-bit chunk selector and 1-3 payload bytes, shifting the value
down 24 bits in the non-terminal (selector 3) case. -/
def writeIntF (fuel : Nat) (w : BinaryWriter) (value : Nat) : BinaryWriter :=
  Nat.rec (motive := fun _ => BinaryWriter → Nat → BinaryWriter)
    (fun w value => write_byte (write_bits w 2 0) value)
    (fun _ ih w value =>
      if value < 256 then
        write_byte (write_bits w 2 0) value
      else if value < 256 * 256 then
        write_byte (write_byte (write_bits w 2 1) (value &&& 0xff)) (value >>> 8)
      else if value < 256 * 256 * 256 then
        write_byte (write_byte (write_byte (write_bits w 2 2)
          (value &&& 0xff)) ((value >>> 8) &&& 0xff)) (value >>> 16)
      else
        ih (write_byte (write_byte (write_byte (write_bits w 2 3)
          (value &&& 0xff)) ((value >>> 8) &&& 0xff)) ((value >>> 16) &&& 0xff))
          (value >>> 24))
    fuel w value

/-- `BinaryWriter.write_integer` (fuel `value + 1` always suffices: the
value strictly decreases through `>> 24` on every continuation). -/
def write_integer (w : BinaryWriter) (value : Nat) : BinaryWriter :=
  writeIntF (value + 1) w value

/-- `BinaryWriter.write_ieee754_2_64`: `struct.pack('<d', v)` emits the 8
little-endian bytes of the double, which is how a double is represented
here in the first place. -/
def write_ieee754_2_64 (w : BinaryWriter) (bs : List Nat) : BinaryWriter :=
  write_bytes w bs

/-- `BinaryWriter.write_string` over the interning table: a previously
seen string is written as flag bit 1 plus its chunked index; a new string
is written as flag bit 0, chunked byte length, raw bytes, and registered
at the next sequential index. -/
def write_string (w : BinaryWriter) (s : List Nat) : BinaryWriter :=
  if s ∈ w.strings then
    write_integer (write_bit w 1) (w.strings.indexOf s)
  else
    let w := write_bit w 0
    let w := { w with strings := w.strings ++ [s] }
    write_bytes (write_integer w s.length) s

/-- The `while value >= max_value` loop of `write_variable_bits`, fuelled
via `Nat.rec`; each iteration emits the all-ones sentinel, subtracts it,
and grows the width by the step. -/
def writeVarF (bitStep fuel : Nat) (w : BinaryWriter) (bitLength value : Nat) : BinaryWriter :=
  Nat.rec (motive := fun _ => BinaryWriter → Nat → Nat → BinaryWriter)
    (fun w bitLength value => write_bits w bitLength value)
    (fun _ ih w bitLength value =>
      let maxValue := 2 ^ bitLength - 1
      if value ≥ maxValue then
        ih (write_bits w bitLength maxValue) (bitLength + bitStep) (value - maxValue)
      else write_bits w bitLength value)
    fuel w bitLength value

/-- `BinaryWriter.write_variable_bits` (fuel `value + 1` suffices whenever
`bit_length ≥ 1`, i.e. for every call the program makes). -/
def write_variable_bits (w : BinaryWriter) (bitLength bitStep value : Nat) : BinaryWriter :=
  writeVarF bitStep (value + 1) w bitLength value

/-- `BinaryWriter.write_type`: variable-width field of nominal width 3,
growth step 0. -/
def write_type (w : BinaryWriter) (value : Nat) : BinaryWriter :=
  write_variable_bits w 3 0 value

/-- `BinaryWriter.finalize`: flush a non-empty pending partial byte,
zero-padding its unused high bits. -/
def finalize (w : BinaryWriter) : BinaryWriter :=
  if w.bitShift > 0 then
    { w with data := w.data.set w.bitWritePos (w.bits &&& 0xff),
             bits := 0, bitShift := 0 }
  else w

/-- State of `BinaryReader`: the (immutable) input bytes, the byte cursor
`position`, the one-byte bit lookahead `bits` with consumed-bit count
`bit_shift`, and the decoded-literal string table `string_list`. -/
structure BinaryReader where
  data : List Nat
  position : Nat
  bits : Nat
  bitShift : Nat
  strings : List (List Nat)
  deriving Repr, DecidableEq

/-- A fresh `BinaryReader` over a buffer. -/
def BinaryReader.init (d : List Nat) : BinaryReader := ⟨d, 0, 0, 0, []⟩

/-- `BinaryReader.read_byte`; Python raises IndexError past the end. -/
def read_byte (r : BinaryReader) : Option (Nat × BinaryReader) :=
  match r.data[r.position]? with
  | some b => some (b, { r with position := r.position + 1 })
  | none => none

/-- `BinaryReader.read_bytes`: a Python slice, which silently yields fewer
bytes when the buffer is short, and the position is advanced by the full
requested length regardless. -/
def read_bytes (r : BinaryReader) (length : Nat) : List Nat × BinaryReader :=
  ((r.data.drop r.position).take length, { r with position := r.position + length })

/-- The `for i in range(num_bits//8)` loop of `read_bits`: assemble `n`
whole bytes little-endian into `acc`, raising on a missing byte. -/
def readFull : Nat → Nat → Nat → BinaryReader → Option (Nat × BinaryReader)
  | 0, acc, _, r => some (acc, r)
  | n + 1, acc, i, r =>
    match read_byte r with
    | some (b, r) => readFull n (acc + (b <<< (i * 8))) (i + 1) r
    | none => none

/-- `BinaryReader.read_bits`: whole bytes are consumed directly; a 1–7-bit
remainder is drawn from the one-byte lookahead, refilled from the stream
when its bits are exhausted or when the remainder straddles a byte. -/
def read_bits (r : BinaryReader) (numBits : Nat) : Option (Nat × BinaryReader) :=
  match readFull (numBits / 8) 0 0 r with
  | none => none
  | some (value, r) =>
    let nb := numBits % 8
    if nb = 0 then some (value, r)
    else
      let refilled : Option BinaryReader :=
        if r.bitShift = 0 then
          match read_byte r with
          | some (b, r') => some { r' with bits := b }
          | none => none
        else if r.bitShift + nb > 8 then
          match read_byte r with
          | some (b, r') => some { r' with bits := r.bits + (b <<< 8) }
          | none => none
        else some r
      match refilled with
      | none => none
      | some r =>
        let mask := 2 ^ nb - 1
        let bitValue := (r.bits >>> r.bitShift) &&& mask
        let sh := r.bitShift + nb
        let r := if sh ≥ 8 then { r with bits := r.bits >>> 8, bitShift := sh - 8 }
                 else { r with bitShift := sh }
        some (value + (bitValue <<< (numBits / 8 * 8)), r)

/-- `BinaryReader.read_bit`. -/
def read_bit (r : BinaryReader) : Option (Nat × BinaryReader) :=
  read_bits r 1

/-- The `while True` loop of `BinaryReader.read_integer`, fuelled via
`Nat.rec`: read a 2-bit selector, then 1-3 payload bytes at the running
shift, continuing at `shift + 24` after a selector-3 chunk. -/
def readIntF (fuel : Nat) (acc shift : Nat) (r : BinaryReader) : Option (Nat × BinaryReader) :=
  Nat.rec (motive := fun _ => Nat → Nat → BinaryReader → Option (Nat × BinaryReader))
    (fun _ _ _ => Option.none)
    (fun _ ih acc shift r =>
      match read_bits r 2 with
      | Option.none => Option.none
      | some (len, r) =>
        if len = 0 then
          match read_byte r with
          | some (b, r) => some (acc + (b <<< shift), r)
          | Option.none => Option.none
        else if len = 1 then
          match read_byte r with
          | some (b0, r) =>
            match read_byte r with
            | some (b1, r) => some (acc + (b0 <<< shift) + (b1 <<< (shift + 8)), r)
            | Option.none => Option.none
          | Option.none => Option.none
        else if len = 2 then
          match read_byte r with
          | some (b0, r) =>
            match read_byte r with
            | some (b1, r) =>
              match read_byte r with
              | some (b2, r) =>
                some (acc + (b0 <<< shift) + (b1 <<< (shift + 8)) + (b2 <<< (shift + 16)), r)
              | Option.none => Option.none
            | Option.none => Option.none
          | Option.none => Option.none
        else
          match read_byte r with
          | some (b0, r) =>
            match read_byte r with
            | some (b1, r) =>
              match read_byte r with
              | some (b2, r) =>
                ih (acc + (b0 <<< shift) + (b1 <<< (shift + 8)) + (b2 <<< (shift + 16)))
                  (shift + 24) r
              | Option.none => Option.none
            | Option.none => Option.none
          | Option.none => Option.none)
    fuel acc shift r

/-- `BinaryReader.read_integer`: every non-terminal chunk consumes three
payload bytes, so `data.length + 1` rounds of fuel always suffice. -/
def read_integer (r : BinaryReader) : Option (Nat × BinaryReader) :=
  readIntF (r.data.length + 1) 0 0 r

/-- `BinaryReader.read_ieee754_2_64`: `struct.unpack` needs exactly 8
bytes and raises `struct.error` on a short buffer. -/
def read_ieee754_2_64 (r : BinaryReader) : Option (List Nat × BinaryReader) :=
  if r.position + 8 ≤ r.data.length then
    some ((r.data.drop r.position).take 8, { r with position := r.position + 8 })
  else none

/-- Strict UTF-8 validity of a byte sequence, as enforced by Python's
`bytes.decode('utf-8')`: rejects stray continuation bytes, overlong forms,
surrogates (U+D800–U+DFFF) and code points above U+10FFFF. -/
def utf8Valid : List Nat → Bool
  | [] => true
  | b :: rest =>
    if b ≤ 0x7F then utf8Valid rest
    else if b ≤ 0xC1 then false
    else if b ≤ 0xDF then
      match rest with
      | c :: rest => (0x80 ≤ c && c ≤ 0xBF) && utf8Valid rest
      | [] => false
    else if b ≤ 0xEF then
      match rest with
      | c1 :: c2 :: rest =>
        (if b = 0xE0 then 0xA0 ≤ c1 && c1 ≤ 0xBF
         else if b = 0xED then 0x80 ≤ c1 && c1 ≤ 0x9F
         else 0x80 ≤ c1 && c1 ≤ 0xBF) &&
        (0x80 ≤ c2 && c2 ≤ 0xBF) && utf8Valid rest
      | _ => false
    else if b ≤ 0xF4 then
      match rest with
      | c1 :: c2 :: c3 :: rest =>
        (if b = 0xF0 then 0x90 ≤ c1 && c1 ≤ 0xBF
         else if b = 0xF4 then 0x80 ≤ c1 && c1 ≤ 0x8F
         else 0x80 ≤ c1 && c1 ≤ 0xBF) &&
        (0x80 ≤ c2 && c2 ≤ 0xBF) && (0x80 ≤ c3 && c3 ≤ 0xBF) && utf8Valid rest
      | _ => false
    else false

/-- `BinaryReader.read_string`: a set flag bit looks the chunked index up
in `string_list` (IndexError when out of range); a clear flag bit reads a
chunked length and that many raw bytes, decodes them as UTF-8 (error when
invalid), and appends the result to `string_list`. -/
def read_string (r : BinaryReader) : Option (List Nat × BinaryReader) :=
  match read_bit r with
  | none => none
  | some (isIndexed, r) =>
    if isIndexed ≠ 0 then
      match read_integer r with
      | none => none
      | some (index, r) =>
        match r.strings[index]? with
        | some s => some (s, r)
        | none => none
    else
      match read_integer r with
      | none => none
      | some (length, r) =>
        let p := read_bytes r length
        if utf8Valid p.1 then
          some (p.1, { p.2 with strings := p.2.strings ++ [p.1] })
        else none

/-- The `while next == max_value` loop of `read_variable_bits`, fuelled
via `Nat.rec`: accumulate sentinel chunks, growing the width by the step,
until a non-sentinel chunk terminates the field. -/
def readVarF (bitStep fuel : Nat) (acc bitLength : Nat) (r : BinaryReader) :
    Option (Nat × BinaryReader) :=
  Nat.rec (motive := fun _ => Nat → Nat → BinaryReader → Option (Nat × BinaryReader))
    (fun _ _ _ => Option.none)
    (fun _ ih acc bitLength r =>
      match read_bits r bitLength with
      | Option.none => Option.none
      | some (next, r) =>
        if next = 2 ^ bitLength - 1 then
          ih (acc + next) (bitLength + bitStep) r
        else
          some (acc + next, r))
    fuel acc bitLength r

/-- `BinaryReader.read_variable_bits` (for a positive width every
iteration consumes bits, so `8 * data.length + 9` rounds suffice for any
terminating read). -/
def read_variable_bits (r : BinaryReader) (bitLength bitStep : Nat) : Option (Nat × BinaryReader) :=
  readVarF bitStep (8 * r.data.length + 9) 0 bitLength r

/-- `BinaryReader.read_type`. -/
def read_type (r : BinaryReader) : Option (Nat × BinaryReader) :=
  read_variable_bits r 3 0

/-- The Python values the adapters move through the codec: the result of
`json.load` (with `bytes` also reachable from the generic decoder), where
a decoded mapping is an insertion-ordered association list as a Python
`dict` is. `real` carries the 8 little-endian IEEE-754 bytes. Strings are
their UTF-8 byte sequences. -/
inductive PyVal where
  | none : PyVal
  | bool : Bool → PyVal
  | int : Int → PyVal
  | real : List Nat → PyVal
  | bytes : List Nat → PyVal
  | str : List Nat → PyVal
  | list : List PyVal → PyVal
  | dict : List (PyVal × PyVal) → PyVal

mutual

/-- Structural equality of `PyVal`s, modelling Python `==` on decoded
values. (Python's cross-type numeric equalities such as `1 == True` and
`1 == 1.0` are not modelled; no claim involves such keys.) -/
def pyEq : PyVal → PyVal → Bool
  | .none, .none => true
  | .bool a, .bool b => a == b
  | .int a, .int b => a == b
  | .real a, .real b => a == b
  | .bytes a, .bytes b => a == b
  | .str a, .str b => a == b
  | .list a, .list b => pyEqList a b
  | .dict a, .dict b => pyEqPairs a b
  | _, _ => false

/-- Elementwise `pyEq` on lists. -/
def pyEqList : List PyVal → List PyVal → Bool
  | [], [] => true
  | a :: as', b :: bs' => pyEq a b && pyEqList as' bs'
  | _, _ => false

/-- Pairwise `pyEq` on association lists. -/
def pyEqPairs : List (PyVal × PyVal) → List (PyVal × PyVal) → Bool
  | [], [] => true
  | a :: as', b :: bs' => pyEq a.1 b.1 && pyEq a.2 b.2 && pyEqPairs as' bs'
  | _, _ => false

end

/-- Whether the 8 little-endian bytes denote an IEEE-754 double equal to
`0.0` (i.e. `+0.0` or `-0.0`): all mantissa/exponent bits clear. -/
def realIsZero (bs : List Nat) : Bool :=
  decide (bs.take 7 = [0, 0, 0, 0, 0, 0, 0]) &&
    (bs[7]? == some 0 || bs[7]? == some 0x80)

/-- Python truthiness (`if key:`) of a decoded value: `None`, `False`,
`0`, `0.0`, empty bytes/str/list/dict are falsy, everything else truthy. -/
def truthy : PyVal → Bool
  | .none => false
  | .bool b => b
  | .int i => !(i == 0)
  | .real bs => !realIsZero bs
  | .bytes bs => !bs.isEmpty
  | .str s => !s.isEmpty
  | .list vs => !vs.isEmpty
  | .dict m => !m.isEmpty

/-- The duplicate-key update `item_map[key] = ...` of the generic map
decoder: a key already present has its value promoted to (or, when it is
already a Python list, appended to) an ordered list; a new key is inserted
at the end, as a Python `dict` does. -/
def dictInsert (m : List (PyVal × PyVal)) (k v : PyVal) : List (PyVal × PyVal) :=
  if m.any (fun p => pyEq p.1 k) then
    m.map (fun p =>
      if pyEq p.1 k then
        (p.1, match p.2 with
              | .list l => .list (l ++ [v])
              | old => .list [old, v])
      else p)
  else m ++ [(k, v)]

mutual

/-- `JSONEncoder.encode_field`: one type tag, then the kind-specific
payload; lists and dicts recurse in order. -/
def encode_field (w : BinaryWriter) : PyVal → BinaryWriter
  | .none => write_type w 0
  | .bool b => write_bit (write_type w 1) (if b then 1 else 0)
  | .int i =>
    write_integer (write_bit (write_type w 2) (if 0 ≤ i then 0 else 1)) i.natAbs
  | .real bs => write_ieee754_2_64 (write_type w 3) bs
  | .bytes bs => write_bytes (write_integer (write_type w 4) bs.length) bs
  | .str s => write_string (write_type w 5) s
  | .list vs => encodeList (write_integer (write_type w 6) vs.length) vs
  | .dict kvs => encodePairs (write_integer (write_type w 8) kvs.length) kvs

/-- The `for child in value` loop of `encode_field` for lists. -/
def encodeList (w : BinaryWriter) : List PyVal → BinaryWriter
  | [] => w
  | v :: vs => encodeList (encode_field w v) vs

/-- The `for child_key in value` loop of `encode_field` for dicts: each
key is encoded, then its value. -/
def encodePairs (w : BinaryWriter) : List (PyVal × PyVal) → BinaryWriter
  | [] => w
  | p :: ps => encodePairs (encode_field (encode_field w p.1) p.2) ps

end

/-- `JSONEncoder.encode`: encode the root value and finalize. -/
def jsonEncode (v : PyVal) : List Nat :=
  (finalize (encode_field BinaryWriter.init v)).data

/-- Decode `n` successive fields with a given one-field decoder (the
`for i in range(num_values)` loop of the list branches). -/
def decodeSeq (dec : BinaryReader → Option (PyVal × BinaryReader)) :
    Nat → BinaryReader → Option (List PyVal × BinaryReader)
  | 0, r => some ([], r)
  | n + 1, r =>
    match dec r with
    | Option.none => Option.none
    | some (v, r) =>
      match decodeSeq dec n r with
      | Option.none => Option.none
      | some (vs, r) => some (v :: vs, r)

/-- Decode and discard `n` key/value pairs (the body of the
`while field_type == TYPE_PROPERTIES` loop in the JSON/CSV decoders). -/
def skipPairs (dec : BinaryReader → Option (PyVal × BinaryReader)) :
    Nat → BinaryReader → Option BinaryReader
  | 0, r => some r
  | n + 1, r =>
    match dec r with
    | Option.none => Option.none
    | some (_, r) =>
      match dec r with
      | Option.none => Option.none
      | some (_, r) => skipPairs dec n r

/-- The `for i in range(num_items)` loop of the generic map decoder: each
key is decoded; a truthy key has its value decoded and merged via
`dictInsert`, while a falsy key is recorded nowhere and — crucially — its
value is never decoded, so the value's bytes stay unconsumed. -/
def decodeMapSeq (dec : BinaryReader → Option (PyVal × BinaryReader)) :
    Nat → List (PyVal × PyVal) → BinaryReader → Option (List (PyVal × PyVal) × BinaryReader)
  | 0, m, r => some (m, r)
  | n + 1, m, r =>
    match dec r with
    | Option.none => Option.none
    | some (k, r) =>
      if truthy k then
        match dec r with
        | Option.none => Option.none
        | some (v, r) => decodeMapSeq dec n (dictInsert m k v) r
      else
        decodeMapSeq dec n m r

/-- The body of `JSONDecoder.decode_field`, parameterized by the decoder
`dec` used for nested fields. The supplied tag is tested with Python
truthiness (`if not field_type:`), so both an absent tag and an explicit
`TYPE_EMPTY` (0) tag cause a fresh tag to be read from the stream. A
leading run of `TYPE_PROPERTIES` blocks is decoded and discarded (and the
loop continues through `dec` with no supplied tag); an unrecognized tag
is a `ValueError` (`none`). -/
def jsonDecodeBody (dec : Option Nat → BinaryReader → Option (PyVal × BinaryReader))
    (fieldType : Option Nat) (r : BinaryReader) : Option (PyVal × BinaryReader) :=
  match (match fieldType with
         | some t => if t = 0 then read_type r else some (t, r)
         | Option.none => read_type r) with
  | Option.none => Option.none
  | some (t, r) =>
    if t = 9 then
      match read_integer r with
      | Option.none => Option.none
      | some (n, r) =>
        match skipPairs (dec Option.none) n r with
        | Option.none => Option.none
        | some r => dec Option.none r
    else if t = 0 then some (.none, r)
    else if t = 1 then
      match read_bit r with
      | Option.none => Option.none
      | some (b, r) => some (.bool (b == 1), r)
    else if t = 2 then
      match read_bit r with
      | Option.none => Option.none
      | some (sg, r) =>
        match read_integer r with
        | Option.none => Option.none
        | some (v, r) => some (.int (if sg == 1 then -(v : Int) else (v : Int)), r)
    else if t = 3 then
      match read_ieee754_2_64 r with
      | Option.none => Option.none
      | some (bs, r) => some (.real bs, r)
    else if t = 4 then
      match read_integer r with
      | Option.none => Option.none
      | some (n, r) =>
        let p := read_bytes r n
        some (.bytes p.1, p.2)
    else if t = 5 then
      match read_string r with
      | Option.none => Option.none
      | some (s, r) => some (.str s, r)
    else if t = 10 then
      match read_string r with
      | Option.none => Option.none
      | some (_, r) => some (.none, r)
    else if t = 6 then
      match read_integer r with
      | Option.none => Option.none
      | some (n, r) =>
        match decodeSeq (dec Option.none) n r with
        | Option.none => Option.none
        | some (vs, r) => some (.list vs, r)
    else if t = 7 then
      match read_type r with
      | Option.none => Option.none
      | some (et, r) =>
        match read_integer r with
        | Option.none => Option.none
        | some (n, r) =>
          match decodeSeq (dec (some et)) n r with
          | Option.none => Option.none
          | some (vs, r) => some (.list vs, r)
    else if t = 8 then
      match read_integer r with
      | Option.none => Option.none
      | some (n, r) =>
        match decodeMapSeq (dec Option.none) n [] r with
        | Option.none => Option.none
        | some (m, r) => some (.dict m, r)
    else Option.none

/-- `JSONDecoder.decode_field`, fuelled on nesting depth via `Nat.rec`. -/
def jsonDecodeF (fuel : Nat) (fieldType : Option Nat) (r : BinaryReader) :
    Option (PyVal × BinaryReader) :=
  Nat.rec (motive := fun _ => Option Nat → BinaryReader → Option (PyVal × BinaryReader))
    (fun _ _ => Option.none)
    (fun _ ih fieldType r => jsonDecodeBody ih fieldType r)
    fuel fieldType r

/-- `JSONDecoder.decode`: every nesting level consumes at least one bit
of the stream, so depth fuel linear in the buffer size suffices. -/
def jsonDecode (data : List Nat) : Option PyVal :=
  (jsonDecodeF (8 * data.length + 8) Option.none (BinaryReader.init data)).map (fun p => p.1)

/-- Decimal digit bytes of a natural number (helper for Python `str()`),
fuelled via `Nat.rec`. -/
def natDigitsF (fuel n : Nat) : List Nat :=
  Nat.rec (motive := fun _ => Nat → List Nat)
    (fun _ => [])
    (fun _ ih n => if n = 0 then [] else ih (n / 10) ++ [48 + n % 10])
    fuel n

/-- Decimal rendering of a natural number as ASCII bytes. -/
def natDecimal (n : Nat) : List Nat :=
  if n = 0 then [48] else natDigitsF (n + 1) n

/-- Decimal rendering of an integer as ASCII bytes (`-` prefix). -/
def intDecimal : Int → List Nat
  | .ofNat n => natDecimal n
  | .negSucc m => 45 :: natDecimal (m + 1)

/-- Python `str()` of a decoded value, as UTF-8 bytes: used by the CSV
decoder when joining list/uniform-list cells. `None` renders as `"None"`,
booleans as `"True"`/`"False"`, integers in decimal, strings as
themselves, already-joined rows as themselves. The text renderings of
floats (shortest-repr formatting) and of bytes objects (`repr`) are
floating-point/text-formatting details outside this embedding's scope and
are approximated by the raw payload bytes; no claim depends on them. -/
def pyStr : PyVal → List Nat
  | .none => [78, 111, 110, 101]
  | .bool true => [84, 114, 117, 101]
  | .bool false => [70, 97, 108, 115, 101]
  | .int i => intDecimal i
  | .real bs => bs
  | .bytes bs => bs
  | .str s => s
  | .list _ => []
  | .dict _ => []

/-- The joining loop of the CSV decoder's list branches:
`output += str(decode_field())`, separated by `sep` except after the last
cell. -/
def decodeJoin (dec : BinaryReader → Option (PyVal × BinaryReader)) (sep : List Nat) :
    Nat → BinaryReader → Option (List Nat × BinaryReader)
  | 0, r => some ([], r)
  | n + 1, r =>
    match dec r with
    | Option.none => Option.none
    | some (v, r) =>
      match n with
      | 0 => some (pyStr v, r)
      | _ + 1 =>
        match decodeJoin dec sep n r with
        | Option.none => Option.none
        | some (s, r) => some (pyStr v ++ sep ++ s, r)

/-- The body of `CSVDecoder.decode_field`, parameterized by the decoder
used for nested fields. The supplied tag is tested with Python truthiness
(`if not field_type:`) exactly as in the JSON decoder. Leading
`TYPE_PROPERTIES` blocks are decoded and discarded; `TYPE_EMPTY` yields
the empty string, `TYPE_COMMENT` is consumed and yields `None`, lists
join their rendered cells with `,`, uniform lists join theirs with a
newline, and `TYPE_MAP` raises `ValueError` (as does any unknown tag). -/
def csvDecodeBody (dec : Option Nat → BinaryReader → Option (PyVal × BinaryReader))
    (fieldType : Option Nat) (r : BinaryReader) : Option (PyVal × BinaryReader) :=
  match (match fieldType with
         | some t => if t = 0 then read_type r else some (t, r)
         | Option.none => read_type r) with
  | Option.none => Option.none
  | some (t, r) =>
    if t = 9 then
      match read_integer r with
      | Option.none => Option.none
      | some (n, r) =>
        match skipPairs (dec Option.none) n r with
        | Option.none => Option.none
        | some r => dec Option.none r
    else if t = 0 then some (.str [], r)
    else if t = 1 then
      match read_bit r with
      | Option.none => Option.none
      | some (b, r) => some (.bool (b == 1), r)
    else if t = 2 then
      match read_bit r with
      | Option.none => Option.none
      | some (sg, r) =>
        match read_integer r with
        | Option.none => Option.none
        | some (v, r) => some (.int (if sg == 1 then -(v : Int) else (v : Int)), r)
    else if t = 3 then
      match read_ieee754_2_64 r with
      | Option.none => Option.none
      | some (bs, r) => some (.real bs, r)
    else if t = 4 then
      match read_integer r with
      | Option.none => Option.none
      | some (n, r) =>
        let p := read_bytes r n
        some (.bytes p.1, p.2)
    else if t = 5 then
      match read_string r with
      | Option.none => Option.none
      | some (s, r) => some (.str s, r)
    else if t = 10 then
      match read_string r with
      | Option.none => Option.none
      | some (_, r) => some (.none, r)
    else if t = 6 then
      match read_integer r with
      | Option.none => Option.none
      | some (n, r) =>
        match decodeJoin (dec Option.none) [44] n r with
        | Option.none => Option.none
        | some (s, r) => some (.str s, r)
    else if t = 7 then
      match read_type r with
      | Option.none => Option.none
      | some (et, r) =>
        match read_integer r with
        | Option.none => Option.none
        | some (n, r) =>
          match decodeJoin (dec (some et)) [10] n r with
          | Option.none => Option.none
          | some (s, r) => some (.str s, r)
    else Option.none

/-- `CSVDecoder.decode_field`, fuelled on nesting depth via `Nat.rec`. -/
def csvDecodeF (fuel : Nat) (fieldType : Option Nat) (r : BinaryReader) :
    Option (PyVal × BinaryReader) :=
  Nat.rec (motive := fun _ => Option Nat → BinaryReader → Option (PyVal × BinaryReader))
    (fun _ _ => Option.none)
    (fun _ ih fieldType r => csvDecodeBody ih fieldType r)
    fuel fieldType r

/-- `CSVDecoder.decode`. -/
def csvDecode (data : List Nat) : Option PyVal :=
  (csvDecodeF (8 * data.length + 8) Option.none (BinaryReader.init data)).map (fun p => p.1)

/-- `XMLDecoder.decode_field`: unlike the JSON/CSV decoders, the supplied
tag is compared against `None` (`if field_type is None:`), so an explicit
`TYPE_EMPTY` tag is honoured without reading the stream. Only primitive
kinds are handled; anything else raises `ValueError`. -/
def xmlDecodeField (fieldType : Option Nat) (r : BinaryReader) : Option (PyVal × BinaryReader) :=
  match (match fieldType with
         | some t => some (t, r)
         | Option.none => read_type r) with
  | Option.none => Option.none
  | some (t, r) =>
    if t = 0 then some (.none, r)
    else if t = 1 then
      match read_bit r with
      | Option.none => Option.none
      | some (b, r) => some (.bool (b == 1), r)
    else if t = 2 then
      match read_bit r with
      | Option.none => Option.none
      | some (sg, r) =>
        match read_integer r with
        | Option.none => Option.none
        | some (v, r) => some (.int (if sg == 1 then -(v : Int) else (v : Int)), r)
    else if t = 3 then
      match read_ieee754_2_64 r with
      | Option.none => Option.none
      | some (bs, r) => some (.real bs, r)
    else if t = 4 then
      match read_integer r with
      | Option.none => Option.none
      | some (n, r) =>
        let p := read_bytes r n
        some (.bytes p.1, p.2)
    else if t = 5 then
      match read_string r with
      | Option.none => Option.none
      | some (s, r) => some (.str s, r)
    else Option.none

/-- Write a sequence of `(width, value)` fields in order with
`write_bits`. -/
def writeBitsList (w : BinaryWriter) : List (Nat × Nat) → BinaryWriter
  | [] => w
  | p :: ps => writeBitsList (write_bits w p.1 p.2) ps

/-- Read back a sequence of fields of the given widths in order with
`read_bits`. -/
def readBitsList (r : BinaryReader) : List Nat → Option (List Nat × BinaryReader)
  | [] => some ([], r)
  | nb :: nbs =>
    match read_bits r nb with
    | Option.none => Option.none
    | some (v, r) =>
      match readBitsList r nbs with
      | Option.none => Option.none
      | some (vs, r) => some (v :: vs, r)

/-- Number of chunks `write_integer` emits for a magnitude: one terminal
chunk, preceded by one 24-bit continuation chunk per `>> 24` step. -/
def numChunks (v : Nat) : Nat :=
  if h : v < 256 * 256 * 256 then 1
  else
    have : v >>> 24 < v := by
      have h2 : 0 < v := by omega
      have : v >>> 24 = v / 2 ^ 24 := Nat.shiftRight_eq_div_pow v 24
      rw [this]
      exact Nat.div_lt_self h2 (by norm_num)
    numChunks (v >>> 24) + 1
termination_by v

/-- Well-formedness of an in-progress `BinaryWriter`: the pending bits fit
the pending count, fewer than 8 bits are pending, and a pending partial
byte has its placeholder inside the buffer. Holds for the fresh writer and
is preserved by every width-fitting write. -/
def WWF (w : BinaryWriter) : Prop :=
  w.bits < 2 ^ w.bitShift ∧ w.bitShift < 8 ∧
    (w.bitShift ≠ 0 → w.bitWritePos < w.data.length)

/-- Agreement between an in-progress writer and the final buffer `D` it
will eventually have produced: `D` extends the bytes emitted so far,
except that the in-progress partial byte at `bitWritePos` is only pinned
down in its low `bitShift` bits. Established backwards from the end of an
encode (where it is trivial), because later writes only append bytes or
patch the current placeholder. -/
def Agrees (w : BinaryWriter) (D : List Nat) : Prop :=
  w.data.length ≤ D.length ∧
  (∀ i, i < w.data.length → (w.bitShift ≠ 0 → i ≠ w.bitWritePos) →
    D[i]? = w.data[i]?) ∧
  (w.bitShift ≠ 0 → ∃ b, D[w.bitWritePos]? = some b ∧ b % 2 ^ w.bitShift = w.bits)

/-- Simulation relation between a reader of the final buffer `D` and the
writer state after the same prefix of operations: the reader has consumed
exactly the bytes the writer has emitted, its bit cursor matches the
writer's pending count, and its one-byte lookahead holds the final value
of the writer's in-progress partial byte. -/
def Sim (D : List Nat) (w : BinaryWriter) (r : BinaryReader) : Prop :=
  r.data = D ∧ r.position = w.data.length ∧ r.bitShift = w.bitShift ∧
    (w.bitShift ≠ 0 → ∃ b, D[w.bitWritePos]? = some b ∧ r.bits = b)

/-- One-step unfolding of the fuelled integer-chunk reader. -/
theorem readIntF_succ (fuel acc shift : Nat) (r : BinaryReader) :
    readIntF (fuel + 1) acc shift r =
      (match read_bits r 2 with
      | Option.none => Option.none
      | some (len, r) =>
        if len = 0 then
          match read_byte r with
          | some (b, r) => some (acc + (b <<< shift), r)
          | Option.none => Option.none
        else if len = 1 then
          match read_byte r with
          | some (b0, r) =>
            match read_byte r with
            | some (b1, r) => some (acc + (b0 <<< shift) + (b1 <<< (shift + 8)), r)
            | Option.none => Option.none
          | Option.none => Option.none
        else if len = 2 then
          match read_byte r with
          | some (b0, r) =>
            match read_byte r with
            | some (b1, r) =>
              match read_byte r with
              | some (b2, r) =>
                some (acc + (b0 <<< shift) + (b1 <<< (shift + 8)) + (b2 <<< (shift + 16)), r)
              | Option.none => Option.none
            | Option.none => Option.none
          | Option.none => Option.none
        else
          match read_byte r with
          | some (b0, r) =>
            match read_byte r with
            | some (b1, r) =>
              match read_byte r with
              | some (b2, r) =>
                readIntF fuel
                  (acc + (b0 <<< shift) + (b1 <<< (shift + 8)) + (b2 <<< (shift + 16)))
                  (shift + 24) r
              | Option.none => Option.none
            | Option.none => Option.none
          | Option.none => Option.none) := rfl

/-- One-step unfolding of the fuelled variable-width field writer. -/
theorem writeVarF_succ (bitStep fuel : Nat) (w : BinaryWriter) (bitLength value : Nat) :
    writeVarF bitStep (fuel + 1) w bitLength value =
      (if value ≥ 2 ^ bitLength - 1 then
        writeVarF bitStep fuel (write_bits w bitLength (2 ^ bitLength - 1))
          (bitLength + bitStep) (value - (2 ^ bitLength - 1))
      else write_bits w bitLength value) := rfl

/-- One-step unfolding of the fuelled integer-chunk writer. -/
theorem writeIntF_succ (fuel : Nat) (w : BinaryWriter) (value : Nat) :
    writeIntF (fuel + 1) w value =
      (if value < 256 then
        write_byte (write_bits w 2 0) value
      else if value < 256 * 256 then
        write_byte (write_byte (write_bits w 2 1) (value &&& 0xff)) (value >>> 8)
      else if value < 256 * 256 * 256 then
        write_byte (write_byte (write_byte (write_bits w 2 2)
          (value &&& 0xff)) ((value >>> 8) &&& 0xff)) (value >>> 16)
      else
        writeIntF fuel
          (write_byte (write_byte (write_byte (write_bits w 2 3)
            (value &&& 0xff)) ((value >>> 8) &&& 0xff)) ((value >>> 16) &&& 0xff))
          (value >>> 24)) := rfl

/-- One-step unfolding of the fuelled JSON field decoder. -/
theorem jsonDecodeF_succ (fuel : Nat) (ft : Option Nat) (r : BinaryReader) :
    jsonDecodeF (fuel + 1) ft r = jsonDecodeBody (jsonDecodeF fuel) ft r := rfl

/-- One-step unfolding of the fuelled CSV field decoder. -/
theorem csvDecodeF_succ (fuel : Nat) (ft : Option Nat) (r : BinaryReader) :
    csvDecodeF (fuel + 1) ft r = csvDecodeBody (csvDecodeF fuel) ft r := rfl

/-- One-step unfolding of the generic map-decoding loop. -/
theorem decodeMapSeq_succ (dec : BinaryReader → Option (PyVal × BinaryReader))
    (n : Nat) (m : List (PyVal × PyVal)) (r : BinaryReader) :
    decodeMapSeq dec (n + 1) m r =
      (match dec r with
      | Option.none => Option.none
      | some (k, r) =>
        if truthy k then
          match dec r with
          | Option.none => Option.none
          | some (v, r) => decodeMapSeq dec n (dictInsert m k v) r
        else decodeMapSeq dec n m r) := rfl

/-- Merging fresh bits above the pending bits: when the pending `a` fits
below `2 ^ s`, the writer's `bits |= value << bit_shift` is plain
addition. -/
theorem lor_shiftLeft_eq_add {a : Nat} (s b : Nat) (h : a < 2 ^ s) :
    a ||| (b <<< s) = a + b * 2 ^ s := by
  rw [Nat.shiftLeft_eq, Nat.lor_comm, show b * 2 ^ s = 2 ^ s * b from Nat.mul_comm _ _,
      ← Nat.mul_add_lt_is_or h b]
  omega

/-- `x & 0xff` is `x % 256`. -/
theorem and_255_eq_mod (x : Nat) : x &&& 255 = x % 256 := by
  have h := Nat.and_pow_two_sub_one_eq_mod x 8
  norm_num at h
  exact h

/-- Bits packed at disjoint offsets stay below the combined width. -/
theorem add_mul_pow_lt {bits v s nb : Nat} (hb : bits < 2 ^ s) (hv : v < 2 ^ nb) :
    bits + v * 2 ^ s < 2 ^ (s + nb) := by
  have h2 : (v + 1) * 2 ^ s ≤ 2 ^ nb * 2 ^ s := Nat.mul_le_mul_right _ hv
  have h3 : (v + 1) * 2 ^ s = v * 2 ^ s + 2 ^ s := by ring
  have h4 : 2 ^ nb * 2 ^ s = 2 ^ (s + nb) := by rw [← pow_add, Nat.add_comm]
  omega

/-- Unfolding of `write_bits` for sub-byte widths (1-7 bits): no whole
bytes are emitted and the pending-bit machinery takes one of its three
paths. -/
theorem write_bits_eq {nb : Nat} (w : BinaryWriter) (v : Nat) (h1 : 1 ≤ nb) (h7 : nb ≤ 7) :
    write_bits w nb v =
      (if w.bitShift = 0 then
        { w with bits := w.bits ||| (v <<< w.bitShift), bitWritePos := w.data.length,
                 data := w.data ++ [0], bitShift := nb }
      else if w.bitShift + nb > 7 then
        if w.bitShift + nb - 8 > 0 then
          { w with
              data := (w.data.set w.bitWritePos ((w.bits ||| (v <<< w.bitShift)) &&& 255)) ++ [0],
              bits := (w.bits ||| (v <<< w.bitShift)) >>> 8,
              bitShift := w.bitShift + nb - 8,
              bitWritePos := (w.data.set w.bitWritePos ((w.bits ||| (v <<< w.bitShift)) &&& 255)).length }
        else
          { w with data := w.data.set w.bitWritePos ((w.bits ||| (v <<< w.bitShift)) &&& 255),
                   bits := (w.bits ||| (v <<< w.bitShift)) >>> 8, bitShift := 0 }
      else { w with bits := w.bits ||| (v <<< w.bitShift), bitShift := w.bitShift + nb }) := by
  have hd : nb / 8 = 0 := Nat.div_eq_of_lt (by omega)
  have hm : nb % 8 = nb := Nat.mod_eq_of_lt (by omega)
  simp only [write_bits, hd, hm, writeFull]
  rw [if_neg (by omega)]

/-- The fresh writer is well-formed. -/
theorem WWF_init : WWF BinaryWriter.init := by
  refine ⟨by simp [BinaryWriter.init], by simp [BinaryWriter.init], fun h => ?_⟩
  exact absurd rfl h

/-- `write_byte` preserves writer well-formedness. -/
theorem WWF_write_byte {w : BinaryWriter} (h : WWF w) (b : Nat) : WWF (write_byte w b) := by
  obtain ⟨hb, hs, hp⟩ := h
  refine ⟨hb, hs, fun hne => ?_⟩
  show w.bitWritePos < (w.data ++ [b]).length
  have := hp hne
  simp only [List.length_append, List.length_cons, List.length_nil]
  omega

/-- `write_bytes` preserves writer well-formedness. -/
theorem WWF_write_bytes {w : BinaryWriter} (h : WWF w) (bs : List Nat) : WWF (write_bytes w bs) := by
  obtain ⟨hb, hs, hp⟩ := h
  refine ⟨hb, hs, fun hne => ?_⟩
  show w.bitWritePos < (w.data ++ bs).length
  have := hp hne
  simp only [List.length_append]
  omega

/-- A width-fitting `write_bits` preserves writer well-formedness. -/
theorem WWF_write_bits {w : BinaryWriter} (h : WWF w) {nb v : Nat}
    (h1 : 1 ≤ nb) (h7 : nb ≤ 7) (hv : v < 2 ^ nb) : WWF (write_bits w nb v) := by
  obtain ⟨hb, hs, hp⟩ := h
  rw [write_bits_eq w v h1 h7]
  by_cases h0 : w.bitShift = 0
  · rw [if_pos h0]
    have hb0 : w.bits = 0 := by rw [h0] at hb; omega
    refine ⟨?_, ?_, fun _ => ?_⟩
    · show w.bits ||| (v <<< w.bitShift) < 2 ^ nb
      rw [hb0, h0, Nat.shiftLeft_zero, Nat.zero_or]
      exact hv
    · show nb < 8
      omega
    · show w.data.length < (w.data ++ [0]).length
      simp
  · rw [if_neg h0]
    have hor : w.bits ||| (v <<< w.bitShift) = w.bits + v * 2 ^ w.bitShift :=
      lor_shiftLeft_eq_add _ _ hb
    have hlt : w.bits + v * 2 ^ w.bitShift < 2 ^ (w.bitShift + nb) := add_mul_pow_lt hb hv
    by_cases h8 : w.bitShift + nb > 7
    · have hdiv : (w.bits ||| (v <<< w.bitShift)) >>> 8 < 2 ^ (w.bitShift + nb - 8) := by
        rw [hor, Nat.shiftRight_eq_div_pow]
        have h256 : (0 : Nat) < 2 ^ 8 := by norm_num
        rw [Nat.div_lt_iff_lt_mul h256, ← pow_add]
        have he : w.bitShift + nb - 8 + 8 = w.bitShift + nb := by omega
        rw [he]
        exact hlt
      by_cases hsh : w.bitShift + nb - 8 > 0
      · rw [if_pos h8, if_pos hsh]
        refine ⟨hdiv, ?_, fun _ => ?_⟩
        · show w.bitShift + nb - 8 < 8
          omega
        show (w.data.set w.bitWritePos ((w.bits ||| (v <<< w.bitShift)) &&& 255)).length <
          ((w.data.set w.bitWritePos ((w.bits ||| (v <<< w.bitShift)) &&& 255)) ++ [0]).length
        simp
      · rw [if_pos h8, if_neg hsh]
        refine ⟨?_, by norm_num, fun hne => absurd rfl hne⟩
        show (w.bits ||| (v <<< w.bitShift)) >>> 8 < 2 ^ (0 : Nat)
        have hz : w.bitShift + nb = 8 := by omega
        rw [hor, Nat.shiftRight_eq_div_pow, pow_zero]
        have : w.bits + v * 2 ^ w.bitShift < 2 ^ 8 := by rw [← hz]; exact hlt
        norm_num at this ⊢
        omega
    · rw [if_neg h8]
      refine ⟨by rw [hor]; exact hlt, ?_, fun _ => hp h0⟩
      show w.bitShift + nb < 8
      omega

/-- A flushed writer trivially agrees with its own buffer. -/
theorem Agrees_self {w : BinaryWriter} (h0 : w.bitShift = 0) : Agrees w w.data :=
  ⟨Nat.le_refl _, fun _ _ _ => rfl, fun hne => absurd h0 hne⟩

/-- Later appends never disturb earlier bytes: agreement transports
backwards over `write_byte`. -/
theorem Agrees_write_byte {w : BinaryWriter} {b : Nat} {D : List Nat}
    (h : Agrees (write_byte w b) D) : Agrees w D := by
  obtain ⟨hl, ha, hp⟩ := h
  replace hl : (w.data ++ [b]).length ≤ D.length := hl
  replace ha : ∀ i, i < (w.data ++ [b]).length → (w.bitShift ≠ 0 → i ≠ w.bitWritePos) →
      D[i]? = (w.data ++ [b])[i]? := ha
  replace hp : w.bitShift ≠ 0 → ∃ c, D[w.bitWritePos]? = some c ∧ c % 2 ^ w.bitShift = w.bits := hp
  rw [List.length_append, List.length_singleton] at hl
  refine ⟨by omega, fun i hi hip => ?_, hp⟩
  have := ha i (by rw [List.length_append, List.length_singleton]; omega) hip
  rwa [List.getElem?_append_left hi] at this

/-- Agreement transports backwards over a width-fitting `write_bits`:
the only byte the write can change is the in-progress partial byte, whose
already-pinned low bits it preserves. -/
theorem Agrees_write_bits {w : BinaryWriter} (hw : WWF w) {nb v : Nat}
    (h1 : 1 ≤ nb) (h7 : nb ≤ 7) {D : List Nat}
    (h : Agrees (write_bits w nb v) D) : Agrees w D := by
  obtain ⟨hb, hs, hpos⟩ := hw
  rw [write_bits_eq w v h1 h7] at h
  have hor : w.bits ||| (v <<< w.bitShift) = w.bits + v * 2 ^ w.bitShift :=
    lor_shiftLeft_eq_add _ _ hb
  have hmod : (w.bits + v * 2 ^ w.bitShift) % 2 ^ w.bitShift = w.bits := by
    rw [Nat.add_mul_mod_self_right]
    exact Nat.mod_eq_of_lt hb
  have hdvd : (2 : Nat) ^ w.bitShift ∣ 256 := by
    have h256 : (256 : Nat) = 2 ^ 8 := by norm_num
    rw [h256]
    exact pow_dvd_pow 2 (by omega)
  have hkey : ((w.bits ||| (v <<< w.bitShift)) &&& 255) % 2 ^ w.bitShift = w.bits := by
    rw [and_255_eq_mod, Nat.mod_mod_of_dvd _ hdvd, hor, hmod]
  by_cases h0 : w.bitShift = 0
  · rw [if_pos h0] at h
    obtain ⟨hl, ha, _⟩ := h
    replace hl : (w.data ++ [0]).length ≤ D.length := hl
    replace ha : ∀ i, i < (w.data ++ [0]).length → (nb ≠ 0 → i ≠ w.data.length) →
        D[i]? = (w.data ++ [0])[i]? := ha
    rw [List.length_append, List.length_singleton] at hl
    refine ⟨by omega, fun i hi _ => ?_, fun hne => absurd h0 hne⟩
    have := ha i (by rw [List.length_append, List.length_singleton]; omega) (fun _ => by omega)
    rwa [List.getElem?_append_left hi] at this
  · have hplt : w.bitWritePos < w.data.length := hpos h0
    rw [if_neg h0] at h
    by_cases h8 : w.bitShift + nb > 7
    · by_cases hsh : w.bitShift + nb - 8 > 0
      · rw [if_pos h8, if_pos hsh] at h
        obtain ⟨hl, ha, _⟩ := h
        replace hl : ((w.data.set w.bitWritePos ((w.bits ||| (v <<< w.bitShift)) &&& 255)) ++ [0]).length
            ≤ D.length := hl
        replace ha : ∀ i,
            i < ((w.data.set w.bitWritePos ((w.bits ||| (v <<< w.bitShift)) &&& 255)) ++ [0]).length →
            (w.bitShift + nb - 8 ≠ 0 →
              i ≠ (w.data.set w.bitWritePos ((w.bits ||| (v <<< w.bitShift)) &&& 255)).length) →
            D[i]? = ((w.data.set w.bitWritePos ((w.bits ||| (v <<< w.bitShift)) &&& 255)) ++ [0])[i]? := ha
        rw [List.length_append, List.length_singleton, List.length_set] at hl
        refine ⟨by omega, fun i hi hip => ?_, fun hne => ?_⟩
        · have hipos : i ≠ w.bitWritePos := hip h0
          have := ha i (by rw [List.length_append, List.length_singleton, List.length_set]; omega)
            (fun _ => by rw [List.length_set]; omega)
          rwa [List.getElem?_append_left (by rw [List.length_set]; omega),
               List.getElem?_set_ne (by omega)] at this
        · refine ⟨(w.bits ||| (v <<< w.bitShift)) &&& 255, ?_, hkey⟩
          have := ha w.bitWritePos
            (by rw [List.length_append, List.length_singleton, List.length_set]; omega)
            (fun _ => by rw [List.length_set]; omega)
          rwa [List.getElem?_append_left (by rw [List.length_set]; omega),
               List.getElem?_set_self hplt] at this
      · rw [if_pos h8, if_neg hsh] at h
        obtain ⟨hl, ha, _⟩ := h
        replace hl : (w.data.set w.bitWritePos ((w.bits ||| (v <<< w.bitShift)) &&& 255)).length
            ≤ D.length := hl
        replace ha : ∀ i,
            i < (w.data.set w.bitWritePos ((w.bits ||| (v <<< w.bitShift)) &&& 255)).length →
            ((0 : Nat) ≠ 0 → i ≠ w.bitWritePos) →
            D[i]? = (w.data.set w.bitWritePos ((w.bits ||| (v <<< w.bitShift)) &&& 255))[i]? := ha
        rw [List.length_set] at hl
        refine ⟨by omega, fun i hi hip => ?_, fun hne => ?_⟩
        · have hipos : i ≠ w.bitWritePos := hip h0
          have := ha i (by rw [List.length_set]; omega) (fun hc => absurd rfl hc)
          rwa [List.getElem?_set_ne (by omega)] at this
        · refine ⟨(w.bits ||| (v <<< w.bitShift)) &&& 255, ?_, hkey⟩
          have := ha w.bitWritePos (by rw [List.length_set]; omega) (fun hc => absurd rfl hc)
          rwa [List.getElem?_set_self hplt] at this
    · rw [if_neg h8] at h
      obtain ⟨hl, ha, hp⟩ := h
      replace hl : w.data.length ≤ D.length := hl
      replace ha : ∀ i, i < w.data.length → (w.bitShift + nb ≠ 0 → i ≠ w.bitWritePos) →
          D[i]? = w.data[i]? := ha
      replace hp : w.bitShift + nb ≠ 0 → ∃ c, D[w.bitWritePos]? = some c ∧
          c % 2 ^ (w.bitShift + nb) = w.bits ||| (v <<< w.bitShift) := hp
      refine ⟨hl, fun i hi hip => ha i hi (fun _ => hip h0), fun hne => ?_⟩
      obtain ⟨c, hD, hcmod⟩ := hp (by omega)
      refine ⟨c, hD, ?_⟩
      have hdvd2 : (2 : Nat) ^ w.bitShift ∣ 2 ^ (w.bitShift + nb) := pow_dvd_pow 2 (by omega)
      calc c % 2 ^ w.bitShift = c % 2 ^ (w.bitShift + nb) % 2 ^ w.bitShift :=
            (Nat.mod_mod_of_dvd _ hdvd2).symm
        _ = w.bits := by rw [hcmod, hor, hmod]

/-- Agreement transports backwards over `finalize`. -/
theorem Agrees_finalize {w : BinaryWriter} (hw : WWF w) {D : List Nat}
    (h : Agrees (finalize w) D) : Agrees w D := by
  obtain ⟨hb, hs, hpos⟩ := hw
  by_cases h0 : w.bitShift > 0
  · have hplt : w.bitWritePos < w.data.length := hpos (by omega)
    simp only [finalize, if_pos h0] at h
    obtain ⟨hl, ha, _⟩ := h
    replace hl : (w.data.set w.bitWritePos (w.bits &&& 255)).length ≤ D.length := hl
    replace ha : ∀ i, i < (w.data.set w.bitWritePos (w.bits &&& 255)).length →
        ((0 : Nat) ≠ 0 → i ≠ w.bitWritePos) →
        D[i]? = (w.data.set w.bitWritePos (w.bits &&& 255))[i]? := ha
    rw [List.length_set] at hl
    refine ⟨hl, fun i hi hip => ?_, fun hne => ?_⟩
    · have hipos : i ≠ w.bitWritePos := hip (by omega)
      have := ha i (by rw [List.length_set]; omega) (fun hc => absurd rfl hc)
      rwa [List.getElem?_set_ne (by omega)] at this
    · refine ⟨w.bits &&& 255, ?_, ?_⟩
      · have := ha w.bitWritePos (by rw [List.length_set]; omega) (fun hc => absurd rfl hc)
        rwa [List.getElem?_set_self hplt] at this
      · rw [and_255_eq_mod]
        have hlt : w.bits < 256 := by
          have h2 : (2 : Nat) ^ w.bitShift ≤ 2 ^ 8 := Nat.pow_le_pow_right (by omega) (by omega)
          norm_num at h2
          omega
        rw [Nat.mod_eq_of_lt hlt]
        exact Nat.mod_eq_of_lt hb
  · simp only [finalize, if_neg h0] at h
    exact h

/-- The fresh reader over the final buffer simulates the fresh writer. -/
theorem Sim_init (D : List Nat) : Sim D BinaryWriter.init (BinaryReader.init D) :=
  ⟨rfl, rfl, rfl, fun h => absurd rfl h⟩

/-- Unfolding of `read_bits` for sub-byte widths (1-7 bits): no whole
bytes are consumed; the lookahead byte is refilled when empty or when the
span straddles into the next byte, then the span is extracted by shift
and mask. -/
theorem read_bits_eq {nb : Nat} (r : BinaryReader) (h1 : 1 ≤ nb) (h7 : nb ≤ 7) :
    read_bits r nb =
      (match (if r.bitShift = 0 then
          match read_byte r with
          | some (b, r') => some { r' with bits := b }
          | Option.none => Option.none
        else if r.bitShift + nb > 8 then
          match read_byte r with
          | some (b, r') => some { r' with bits := r.bits + (b <<< 8) }
          | Option.none => Option.none
        else some r) with
      | Option.none => Option.none
      | some r2 =>
        some ((r2.bits >>> r2.bitShift) &&& (2 ^ nb - 1),
          if r2.bitShift + nb ≥ 8 then
            { r2 with bits := r2.bits >>> 8, bitShift := r2.bitShift + nb - 8 }
          else { r2 with bitShift := r2.bitShift + nb })) := by
  have hd : nb / 8 = 0 := Nat.div_eq_of_lt (by omega)
  have hm : nb % 8 = nb := Nat.mod_eq_of_lt (by omega)
  simp only [read_bits, hd, hm, readFull, Nat.zero_mul, Nat.shiftLeft_zero, Nat.zero_add]
  rw [if_neg (by omega)]

/-- Extracting a span that was packed at offset `s` under higher chunks
recovers exactly the written value. -/
theorem extract_bits {bits v s nb t X : Nat} (hb : bits < 2 ^ s) (hv : v < 2 ^ nb)
    (hX : X = bits + v * 2 ^ s + t * 2 ^ (s + nb)) :
    (X >>> s) &&& (2 ^ nb - 1) = v := by
  subst hX
  rw [Nat.shiftRight_eq_div_pow, Nat.and_pow_two_sub_one_eq_mod]
  have hpos : 0 < 2 ^ s := pow_pos (by norm_num) s
  have h2 : bits + v * 2 ^ s + t * 2 ^ (s + nb) = bits + (v + t * 2 ^ nb) * 2 ^ s := by
    rw [pow_add]
    ring
  rw [h2, Nat.add_mul_div_right _ _ hpos, Nat.div_eq_of_lt hb, Nat.zero_add,
      Nat.add_mul_mod_self_right, Nat.mod_eq_of_lt hv]

/-- Reading one byte on the final buffer mirrors `write_byte`: the reader
consumes exactly the byte the writer appended. -/
theorem step_byte {w : BinaryWriter} {b : Nat} {D : List Nat} {r : BinaryReader}
    (hw : WWF w) (hA : Agrees (write_byte w b) D) (hS : Sim D w r) :
    read_byte r = some (b, { r with position := r.position + 1 })
    ∧ Sim D (write_byte w b) { r with position := r.position + 1 } := by
  obtain ⟨hrd, hrp, hrs, hrb⟩ := hS
  obtain ⟨hl, ha, hp⟩ := hA
  replace ha : ∀ i, i < (w.data ++ [b]).length → (w.bitShift ≠ 0 → i ≠ w.bitWritePos) →
      D[i]? = (w.data ++ [b])[i]? := ha
  have hDb : D[w.data.length]? = some b := by
    have := ha w.data.length (by simp) (fun hne => by have := hw.2.2 hne; omega)
    rwa [List.getElem?_concat_length] at this
  have hread : read_byte r = some (b, { r with position := r.position + 1 }) := by
    unfold read_byte
    rw [hrd, hrp, hDb]
  refine ⟨hread, hrd, ?_, hrs, fun hne => ?_⟩
  · show r.position + 1 = (w.data ++ [b]).length
    rw [List.length_append, List.length_singleton, hrp]
  · exact hrb hne

/-- Splitting a power across the byte boundary. -/
theorem two_pow_split {s nb : Nat} (h : 8 ≤ s + nb) :
    2 ^ (s + nb) = 256 * 2 ^ (s + nb - 8) := by
  have h2 : (256 : Nat) = 2 ^ 8 := by norm_num
  rw [h2, ← pow_add]
  congr 1
  omega

/-- Reading a sub-byte span on the final buffer mirrors a width-fitting
`write_bits`: the reader returns exactly the written value and stays in
simulation. This is the crux of the bit-cursor round-trip: the four cases
follow the writer's pending-bit paths (fresh placeholder, in-place merge,
exact flush, straddling flush). -/
theorem step_bits {w : BinaryWriter} {nb v : Nat} {D : List Nat} {r : BinaryReader}
    (hw : WWF w) (h1 : 1 ≤ nb) (h7 : nb ≤ 7) (hv : v < 2 ^ nb)
    (hA : Agrees (write_bits w nb v) D) (hS : Sim D w r) :
    ∃ r', read_bits r nb = some (v, r') ∧ Sim D (write_bits w nb v) r' := by
  obtain ⟨hb, hs, hpos⟩ := hw
  obtain ⟨hrd, hrp, hrs, hrb⟩ := hS
  rw [write_bits_eq w v h1 h7] at hA ⊢
  have hor : w.bits ||| (v <<< w.bitShift) = w.bits + v * 2 ^ w.bitShift :=
    lor_shiftLeft_eq_add _ _ hb
  by_cases h0 : w.bitShift = 0
  · -- fresh placeholder: the reader refills its empty lookahead with it
    rw [if_pos h0] at hA ⊢
    obtain ⟨hl, ha, hp⟩ := hA
    replace hp : nb ≠ 0 → ∃ c, D[w.data.length]? = some c ∧
        c % 2 ^ nb = w.bits ||| (v <<< w.bitShift) := hp
    obtain ⟨c, hDc, hcmod⟩ := hp (by omega)
    have hb0 : w.bits = 0 := by rw [h0] at hb; omega
    have hcv : c % 2 ^ nb = v := by
      rw [hcmod, h0, Nat.shiftLeft_zero, hb0, Nat.zero_or]
    have hread : read_byte r = some (c, { r with position := r.position + 1 }) := by
      unfold read_byte
      rw [hrd, hrp, hDc]
    have hrs0 : r.bitShift = 0 := by rw [hrs, h0]
    refine ⟨{ r with position := r.position + 1, bits := c, bitShift := nb }, ?_, ?_⟩
    · rw [read_bits_eq r h1 h7, if_pos hrs0, hread]
      simp only [hrs0]
      rw [if_neg (by omega), Nat.zero_add, Nat.shiftRight_zero,
          Nat.and_pow_two_sub_one_eq_mod, hcv]
    · refine ⟨hrd, ?_, rfl, fun _ => ⟨c, hDc, rfl⟩⟩
      show r.position + 1 = (w.data ++ [0]).length
      rw [List.length_append, List.length_singleton, hrp]
  · have hplt : w.bitWritePos < w.data.length := hpos h0
    have hrs0 : ¬ r.bitShift = 0 := by rw [hrs]; exact h0
    obtain ⟨c, hDp, hrbits⟩ := hrb h0
    rw [if_neg h0] at hA ⊢
    by_cases h8 : w.bitShift + nb > 7
    · have hbits'lt : w.bits + v * 2 ^ w.bitShift < 2 ^ (w.bitShift + nb) :=
        add_mul_pow_lt hb hv
      by_cases hsh : w.bitShift + nb - 8 > 0
      · -- straddling flush: the span crosses into a fresh placeholder byte
        rw [if_pos h8, if_pos hsh] at hA ⊢
        obtain ⟨hl, ha, hp⟩ := hA
        replace hl : ((w.data.set w.bitWritePos ((w.bits ||| (v <<< w.bitShift)) &&& 255)) ++ [0]).length
            ≤ D.length := hl
        replace ha : ∀ i,
            i < ((w.data.set w.bitWritePos ((w.bits ||| (v <<< w.bitShift)) &&& 255)) ++ [0]).length →
            (w.bitShift + nb - 8 ≠ 0 →
              i ≠ (w.data.set w.bitWritePos ((w.bits ||| (v <<< w.bitShift)) &&& 255)).length) →
            D[i]? = ((w.data.set w.bitWritePos ((w.bits ||| (v <<< w.bitShift)) &&& 255)) ++ [0])[i]? := ha
        replace hp : w.bitShift + nb - 8 ≠ 0 → ∃ c2,
            D[(w.data.set w.bitWritePos ((w.bits ||| (v <<< w.bitShift)) &&& 255)).length]? = some c2 ∧
            c2 % 2 ^ (w.bitShift + nb - 8) = (w.bits ||| (v <<< w.bitShift)) >>> 8 := hp
        obtain ⟨c2, hDc2, hc2mod⟩ := hp (by omega)
        rw [List.length_set] at hDc2
        have hcval : c = (w.bits + v * 2 ^ w.bitShift) % 256 := by
          have := ha w.bitWritePos
            (by rw [List.length_append, List.length_singleton, List.length_set]; omega)
            (fun _ => by rw [List.length_set]; omega)
          rw [List.getElem?_append_left (by rw [List.length_set]; omega),
              List.getElem?_set_self hplt, hor, and_255_eq_mod] at this
          rw [hDp] at this
          exact Option.some.inj this
        have hread : read_byte r = some (c2, { r with position := r.position + 1 }) := by
          unfold read_byte
          rw [hrd, hrp, hDc2]
        have hX : r.bits + (c2 <<< 8) = w.bits + v * 2 ^ w.bitShift
            + (c2 / 2 ^ (w.bitShift + nb - 8)) * 2 ^ (w.bitShift + nb) := by
          have hsplit := Nat.mod_add_div c2 (2 ^ (w.bitShift + nb - 8))
          have hdm := Nat.mod_add_div (w.bits + v * 2 ^ w.bitShift) 256
          have hshift8 : (w.bits ||| (v <<< w.bitShift)) >>> 8
              = (w.bits + v * 2 ^ w.bitShift) / 256 := by
            rw [hor, Nat.shiftRight_eq_div_pow]
          rw [hshift8] at hc2mod
          have hpow : 2 ^ (w.bitShift + nb) = 256 * 2 ^ (w.bitShift + nb - 8) :=
            two_pow_split (by omega)
          rw [hrbits, hcval, Nat.shiftLeft_eq, hpow]
          have h256 : c2 * 2 ^ 8 = c2 * 256 := by norm_num
          rw [h256]
          calc (w.bits + v * 2 ^ w.bitShift) % 256 + c2 * 256
              = (w.bits + v * 2 ^ w.bitShift) % 256 +
                (c2 % 2 ^ (w.bitShift + nb - 8) + 2 ^ (w.bitShift + nb - 8) * (c2 / 2 ^ (w.bitShift + nb - 8))) * 256 := by
                rw [hsplit]
            _ = (w.bits + v * 2 ^ w.bitShift) % 256 +
                ((w.bits + v * 2 ^ w.bitShift) / 256 + 2 ^ (w.bitShift + nb - 8) * (c2 / 2 ^ (w.bitShift + nb - 8))) * 256 := by
                rw [hc2mod]
            _ = ((w.bits + v * 2 ^ w.bitShift) % 256 + 256 * ((w.bits + v * 2 ^ w.bitShift) / 256))
                + (c2 / 2 ^ (w.bitShift + nb - 8)) * (256 * 2 ^ (w.bitShift + nb - 8)) := by ring
            _ = w.bits + v * 2 ^ w.bitShift
                + (c2 / 2 ^ (w.bitShift + nb - 8)) * (256 * 2 ^ (w.bitShift + nb - 8)) := by rw [hdm]
        have hbv : ((r.bits + (c2 <<< 8)) >>> w.bitShift) &&& (2 ^ nb - 1) = v :=
          extract_bits hb hv hX
        have hfb : (r.bits + (c2 <<< 8)) >>> 8 = c2 := by
          rw [hrbits, hcval, Nat.shiftLeft_eq, Nat.shiftRight_eq_div_pow]
          have h256 : (2 : Nat) ^ 8 = 256 := by norm_num
          rw [h256, Nat.add_mul_div_right _ _ (by norm_num : (0:Nat) < 256),
              Nat.div_eq_of_lt (Nat.mod_lt _ (by norm_num)), Nat.zero_add]
        refine ⟨⟨r.data, r.position + 1, (r.bits + (c2 <<< 8)) >>> 8,
                 r.bitShift + nb - 8, r.strings⟩, ?_, ?_⟩
        · rw [read_bits_eq r h1 h7, if_neg hrs0, if_pos (by rw [hrs]; omega), hread]
          simp only []
          rw [if_pos (by rw [hrs]; omega)]
          rw [hrs, hbv]
        · refine ⟨hrd, ?_, ?_, fun _ => ⟨c2, ?_, hfb⟩⟩
          · show r.position + 1 =
              ((w.data.set w.bitWritePos ((w.bits ||| (v <<< w.bitShift)) &&& 255)) ++ [0]).length
            rw [List.length_append, List.length_singleton, List.length_set, hrp]
          · show r.bitShift + nb - 8 = w.bitShift + nb - 8
            rw [hrs]
          · show D[(w.data.set w.bitWritePos ((w.bits ||| (v <<< w.bitShift)) &&& 255)).length]?
              = some c2
            rw [List.length_set]
            exact hDc2
      · -- exact flush: the span completes the byte precisely
        rw [if_pos h8, if_neg hsh] at hA ⊢
        obtain ⟨hl, ha, _⟩ := hA
        replace ha : ∀ i,
            i < (w.data.set w.bitWritePos ((w.bits ||| (v <<< w.bitShift)) &&& 255)).length →
            ((0 : Nat) ≠ 0 → i ≠ w.bitWritePos) →
            D[i]? = (w.data.set w.bitWritePos ((w.bits ||| (v <<< w.bitShift)) &&& 255))[i]? := ha
        have hz : w.bitShift + nb = 8 := by omega
        have hcval : c = w.bits + v * 2 ^ w.bitShift := by
          have := ha w.bitWritePos (by rw [List.length_set]; omega) (fun hc => absurd rfl hc)
          rw [List.getElem?_set_self hplt, hor, and_255_eq_mod, hDp] at this
          have h256 : w.bits + v * 2 ^ w.bitShift < 256 := by
            have := hbits'lt
            rw [hz] at this
            norm_num at this
            exact this
          rw [Nat.mod_eq_of_lt h256] at this
          exact Option.some.inj this
        have hX : c = w.bits + v * 2 ^ w.bitShift + 0 * 2 ^ (w.bitShift + nb) := by
          rw [hcval]
          ring
        have hbv : (c >>> w.bitShift) &&& (2 ^ nb - 1) = v := extract_bits hb hv hX
        refine ⟨{ r with bits := r.bits >>> 8, bitShift := r.bitShift + nb - 8 }, ?_, ?_⟩
        · rw [read_bits_eq r h1 h7, if_neg hrs0, if_neg (by rw [hrs]; omega)]
          simp only []
          rw [if_pos (by rw [hrs]; omega)]
          rw [hrs, hrbits, hbv]
        · refine ⟨hrd, ?_, ?_, fun hne => absurd rfl hne⟩
          · show r.position =
              (w.data.set w.bitWritePos ((w.bits ||| (v <<< w.bitShift)) &&& 255)).length
            rw [List.length_set, hrp]
          · show r.bitShift + nb - 8 = 0
            rw [hrs]
            omega
    · -- in-place merge: the span lands inside the current partial byte
      rw [if_neg h8] at hA ⊢
      obtain ⟨hl, ha, hp⟩ := hA
      replace hp : w.bitShift + nb ≠ 0 → ∃ c2, D[w.bitWritePos]? = some c2 ∧
          c2 % 2 ^ (w.bitShift + nb) = w.bits ||| (v <<< w.bitShift) := hp
      obtain ⟨c2, hDc2, hc2mod⟩ := hp (by omega)
      have hcc : c = c2 := Option.some.inj (hDp.symm.trans hDc2)
      have hX : c = w.bits + v * 2 ^ w.bitShift
          + (c / 2 ^ (w.bitShift + nb)) * 2 ^ (w.bitShift + nb) := by
        have hsplit := Nat.mod_add_div c (2 ^ (w.bitShift + nb))
        rw [hcc, hc2mod, hor] at hsplit
        calc c = c2 % 2 ^ (w.bitShift + nb) + 2 ^ (w.bitShift + nb) * (c2 / 2 ^ (w.bitShift + nb)) := by
              rw [Nat.mod_add_div, hcc]
          _ = w.bits + v * 2 ^ w.bitShift
              + (c / 2 ^ (w.bitShift + nb)) * 2 ^ (w.bitShift + nb) := by
              rw [hc2mod, hor, hcc]
              ring
      have hbv : (c >>> w.bitShift) &&& (2 ^ nb - 1) = v := extract_bits hb hv hX
      refine ⟨{ r with bitShift := r.bitShift + nb }, ?_, ?_⟩
      · rw [read_bits_eq r h1 h7, if_neg hrs0, if_neg (by rw [hrs]; omega)]
        simp only []
        rw [if_neg (by rw [hrs]; omega)]
        rw [hrs, hrbits, hbv]
      · refine ⟨hrd, hrp, ?_, fun _ => ⟨c, hDp, hrbits⟩⟩
        show r.bitShift + nb = w.bitShift + nb
        rw [hrs]

/-- A sequence of width-fitting bit writes keeps the writer well-formed. -/
theorem WWF_writeBitsList {ps : List (Nat × Nat)} : ∀ {w : BinaryWriter}, WWF w →
    (∀ p ∈ ps, 1 ≤ p.1 ∧ p.1 ≤ 7 ∧ p.2 < 2 ^ p.1) → WWF (writeBitsList w ps) := by
  induction ps with
  | nil => intro w hw _; exact hw
  | cons p ps ih =>
    intro w hw hg
    have hp := hg p (List.mem_cons_self _ _)
    exact ih (WWF_write_bits hw hp.1 hp.2.1 hp.2.2)
      (fun q hq => hg q (List.mem_cons_of_mem _ hq))

/-- Agreement transports backwards over a sequence of width-fitting bit
writes. -/
theorem Agrees_writeBitsList {ps : List (Nat × Nat)} : ∀ {w : BinaryWriter} {D : List Nat},
    WWF w → (∀ p ∈ ps, 1 ≤ p.1 ∧ p.1 ≤ 7 ∧ p.2 < 2 ^ p.1) →
    Agrees (writeBitsList w ps) D → Agrees w D := by
  induction ps with
  | nil => intro w D _ _ h; exact h
  | cons p ps ih =>
    intro w D hw hg h
    have hp := hg p (List.mem_cons_self _ _)
    exact Agrees_write_bits hw hp.1 hp.2.1
      (ih (WWF_write_bits hw hp.1 hp.2.1 hp.2.2)
        (fun q hq => hg q (List.mem_cons_of_mem _ hq)) h)

/-- Round-trip of a whole sequence of width-fitting bit fields, by
iterating `step_bits` along the simulation. -/
theorem bitsList_core {ps : List (Nat × Nat)} : ∀ {w : BinaryWriter} {D : List Nat}
    {r : BinaryReader},
    WWF w → (∀ p ∈ ps, 1 ≤ p.1 ∧ p.1 ≤ 7 ∧ p.2 < 2 ^ p.1) →
    Agrees (writeBitsList w ps) D → Sim D w r →
    ∃ r', readBitsList r (ps.map Prod.fst) = some (ps.map Prod.snd, r')
      ∧ Sim D (writeBitsList w ps) r' := by
  induction ps with
  | nil => intro w D r _ _ _ hS; exact ⟨r, rfl, hS⟩
  | cons p ps ih =>
    intro w D r hw hg hA hS
    have hp := hg p (List.mem_cons_self _ _)
    have hw' := WWF_write_bits hw hp.1 hp.2.1 hp.2.2
    have hg' := fun q hq => hg q (List.mem_cons_of_mem _ hq)
    have hA1 : Agrees (write_bits w p.1 p.2) D := Agrees_writeBitsList hw' hg' hA
    obtain ⟨r1, hread, hS1⟩ := step_bits hw hp.1 hp.2.1 hp.2.2 hA1 hS
    obtain ⟨r2, hreads, hS2⟩ := ih hw' hg' hA hS1
    refine ⟨r2, ?_, hS2⟩
    simp only [List.map_cons, readBitsList, hread, hreads]

/-- `numChunks` on a terminal magnitude. -/
theorem numChunks_lt {v : Nat} (h : v < 256 * 256 * 256) : numChunks v = 1 := by
  unfold numChunks
  rw [dif_pos h]

/-- `numChunks` on a continuing magnitude. -/
theorem numChunks_ge {v : Nat} (h : ¬ v < 256 * 256 * 256) :
    numChunks v = numChunks (v >>> 24) + 1 := by
  conv_lhs => rw [numChunks]
  rw [dif_neg h]

/-- Every magnitude takes at least one chunk. -/
theorem numChunks_pos (v : Nat) : 1 ≤ numChunks v := by
  by_cases h : v < 256 * 256 * 256
  · rw [numChunks_lt h]
  · rw [numChunks_ge h]
    omega

/-- `finalize` always leaves the bit cursor flushed. -/
theorem finalize_bitShift (w : BinaryWriter) : (finalize w).bitShift = 0 := by
  unfold finalize
  by_cases h : w.bitShift > 0
  · rw [if_pos h]
  · rw [if_neg h]
    omega

/-- `finalize` never changes the buffer length (it only patches the
placeholder byte in place). -/
theorem finalize_length (w : BinaryWriter) : (finalize w).data.length = w.data.length := by
  unfold finalize
  by_cases h : w.bitShift > 0
  · rw [if_pos h]
    show (w.data.set w.bitWritePos (w.bits &&& 255)).length = w.data.length
    simp
  · rw [if_neg h]

/-- A sub-byte `write_bits` never shrinks the buffer. -/
theorem write_bits_length_ge (w : BinaryWriter) (v : Nat) {nb : Nat}
    (h1 : 1 ≤ nb) (h7 : nb ≤ 7) :
    w.data.length ≤ (write_bits w nb v).data.length := by
  rw [write_bits_eq w v h1 h7]
  by_cases h0 : w.bitShift = 0
  · rw [if_pos h0]
    show w.data.length ≤ (w.data ++ [0]).length
    simp
  · rw [if_neg h0]
    by_cases h8 : w.bitShift + nb > 7
    · by_cases hsh : w.bitShift + nb - 8 > 0
      · rw [if_pos h8, if_pos hsh]
        show w.data.length ≤
          ((w.data.set w.bitWritePos ((w.bits ||| (v <<< w.bitShift)) &&& 255)) ++ [0]).length
        simp
      · rw [if_pos h8, if_neg hsh]
        show w.data.length ≤
          (w.data.set w.bitWritePos ((w.bits ||| (v <<< w.bitShift)) &&& 255)).length
        simp
    · rw [if_neg h8]

/-- The chunked integer writer is insensitive to surplus fuel. -/
theorem writeIntF_fuel : ∀ v : Nat, ∀ {f f' : Nat} (w : BinaryWriter), v < f → v < f' →
    writeIntF f w v = writeIntF f' w v := by
  intro v
  induction v using Nat.strong_induction_on with
  | _ v ih =>
    intro f f' w hf hf'
    obtain ⟨f, rfl⟩ : ∃ g, f = g + 1 := ⟨f - 1, by omega⟩
    obtain ⟨f', rfl⟩ : ∃ g, f' = g + 1 := ⟨f' - 1, by omega⟩
    rw [writeIntF_succ, writeIntF_succ]
    by_cases h1 : v < 256
    · rw [if_pos h1, if_pos h1]
    · rw [if_neg h1, if_neg h1]
      by_cases h2 : v < 256 * 256
      · rw [if_pos h2, if_pos h2]
      · rw [if_neg h2, if_neg h2]
        by_cases h3 : v < 256 * 256 * 256
        · rw [if_pos h3, if_pos h3]
        · rw [if_neg h3, if_neg h3]
          have hlt : v >>> 24 < v := by
            rw [Nat.shiftRight_eq_div_pow]
            exact Nat.div_lt_self (by omega) (by norm_num)
          exact ih _ hlt _ (by omega) (by omega)

/-- The chunked integer writer preserves writer well-formedness. -/
theorem WWF_writeIntF : ∀ v : Nat, ∀ {f : Nat} (w : BinaryWriter), WWF w → v < f →
    WWF (writeIntF f w v) := by
  intro v
  induction v using Nat.strong_induction_on with
  | _ v ih =>
    intro f w hw hf
    obtain ⟨f, rfl⟩ : ∃ g, f = g + 1 := ⟨f - 1, by omega⟩
    rw [writeIntF_succ]
    by_cases h1 : v < 256
    · rw [if_pos h1]
      exact WWF_write_byte (WWF_write_bits hw (by norm_num) (by norm_num) (by norm_num)) v
    · rw [if_neg h1]
      by_cases h2 : v < 256 * 256
      · rw [if_pos h2]
        exact WWF_write_byte (WWF_write_byte
          (WWF_write_bits hw (by norm_num) (by norm_num) (by norm_num)) _) _
      · rw [if_neg h2]
        by_cases h3 : v < 256 * 256 * 256
        · rw [if_pos h3]
          exact WWF_write_byte (WWF_write_byte (WWF_write_byte
            (WWF_write_bits hw (by norm_num) (by norm_num) (by norm_num)) _) _) _
        · rw [if_neg h3]
          have hlt : v >>> 24 < v := by
            rw [Nat.shiftRight_eq_div_pow]
            exact Nat.div_lt_self (by omega) (by norm_num)
          exact ih _ hlt _ (WWF_write_byte (WWF_write_byte (WWF_write_byte
            (WWF_write_bits hw (by norm_num) (by norm_num) (by norm_num)) _) _) _) (by omega)

/-- Agreement transports backwards over the chunked integer writer. -/
theorem Agrees_writeIntF : ∀ v : Nat, ∀ {f : Nat} {w : BinaryWriter} {D : List Nat},
    WWF w → v < f → Agrees (writeIntF f w v) D → Agrees w D := by
  intro v
  induction v using Nat.strong_induction_on with
  | _ v ih =>
    intro f w D hw hf hA
    obtain ⟨f, rfl⟩ : ∃ g, f = g + 1 := ⟨f - 1, by omega⟩
    rw [writeIntF_succ] at hA
    by_cases h1 : v < 256
    · rw [if_pos h1] at hA
      exact Agrees_write_bits hw (by norm_num) (by norm_num) (Agrees_write_byte hA)
    · rw [if_neg h1] at hA
      by_cases h2 : v < 256 * 256
      · rw [if_pos h2] at hA
        exact Agrees_write_bits hw (by norm_num) (by norm_num)
          (Agrees_write_byte (Agrees_write_byte hA))
      · rw [if_neg h2] at hA
        by_cases h3 : v < 256 * 256 * 256
        · rw [if_pos h3] at hA
          exact Agrees_write_bits hw (by norm_num) (by norm_num)
            (Agrees_write_byte (Agrees_write_byte (Agrees_write_byte hA)))
        · rw [if_neg h3] at hA
          have hlt : v >>> 24 < v := by
            rw [Nat.shiftRight_eq_div_pow]
            exact Nat.div_lt_self (by omega) (by norm_num)
          have hw3 : WWF (write_byte (write_byte (write_byte (write_bits w 2 3)
              (v &&& 255)) ((v >>> 8) &&& 255)) ((v >>> 16) &&& 255)) :=
            WWF_write_byte (WWF_write_byte (WWF_write_byte
              (WWF_write_bits hw (by norm_num) (by norm_num) (by norm_num)) _) _) _
          have := ih _ hlt hw3 (show v >>> 24 < f by omega) hA
          exact Agrees_write_bits hw (by norm_num) (by norm_num)
            (Agrees_write_byte (Agrees_write_byte (Agrees_write_byte this)))

/-- The chunked integer writer emits at least one byte per chunk. -/
theorem writeIntF_length : ∀ v : Nat, ∀ {f : Nat} (w : BinaryWriter), v < f →
    w.data.length + numChunks v ≤ (writeIntF f w v).data.length := by
  intro v
  induction v using Nat.strong_induction_on with
  | _ v ih =>
    intro f w hf
    obtain ⟨f, rfl⟩ : ∃ g, f = g + 1 := ⟨f - 1, by omega⟩
    rw [writeIntF_succ]
    by_cases h1 : v < 256
    · rw [if_pos h1, numChunks_lt (by omega)]
      have hbl := write_bits_length_ge w 0 (show 1 ≤ 2 by norm_num) (by norm_num)
      show w.data.length + 1 ≤ ((write_bits w 2 0).data ++ [v]).length
      simp only [List.length_append, List.length_singleton]
      omega
    · rw [if_neg h1]
      by_cases h2 : v < 256 * 256
      · rw [if_pos h2, numChunks_lt (by omega)]
        have hbl := write_bits_length_ge w 1 (show 1 ≤ 2 by norm_num) (by norm_num)
        show w.data.length + 1 ≤
          (((write_bits w 2 1).data ++ [v &&& 255]) ++ [v >>> 8]).length
        simp only [List.length_append, List.length_singleton]
        omega
      · rw [if_neg h2]
        by_cases h3 : v < 256 * 256 * 256
        · rw [if_pos h3, numChunks_lt (by omega)]
          have hbl := write_bits_length_ge w 2 (show 1 ≤ 2 by norm_num) (by norm_num)
          show w.data.length + 1 ≤
            ((((write_bits w 2 2).data ++ [v &&& 255]) ++ [(v >>> 8) &&& 255]) ++ [v >>> 16]).length
          simp only [List.length_append, List.length_singleton]
          omega
        · rw [if_neg h3, numChunks_ge h3]
          have hlt : v >>> 24 < v := by
            rw [Nat.shiftRight_eq_div_pow]
            exact Nat.div_lt_self (by omega) (by norm_num)
          have hbl := write_bits_length_ge w 3 (show 1 ≤ 2 by norm_num) (by norm_num)
          have hrec := ih _ hlt (f := f)
            (write_byte (write_byte (write_byte (write_bits w 2 3)
              (v &&& 255)) ((v >>> 8) &&& 255)) ((v >>> 16) &&& 255)) (by omega)
          have hlen : (write_byte (write_byte (write_byte (write_bits w 2 3)
              (v &&& 255)) ((v >>> 8) &&& 255)) ((v >>> 16) &&& 255)).data.length
              = (write_bits w 2 3).data.length + 3 := by
            show ((((write_bits w 2 3).data ++ [v &&& 255]) ++ [(v >>> 8) &&& 255])
              ++ [(v >>> 16) &&& 255]).length = (write_bits w 2 3).data.length + 3
            simp only [List.length_append, List.length_singleton]
          omega

/-- Recomposing a two-byte chunk at the running shift. -/
theorem recompose2 (acc shift v : Nat) :
    acc + ((v &&& 255) <<< shift) + ((v >>> 8) <<< (shift + 8)) = acc + (v <<< shift) := by
  simp only [and_255_eq_mod, Nat.shiftRight_eq_div_pow, Nat.shiftLeft_eq, pow_add]
  have hid : v % 256 + 2 ^ 8 * (v / 2 ^ 8) = v := by
    norm_num [Nat.mod_add_div]
  conv_rhs => rw [← hid]
  ring

/-- Recomposing a three-byte chunk at the running shift. -/
theorem recompose3 (acc shift v : Nat) :
    acc + ((v &&& 255) <<< shift) + (((v >>> 8) &&& 255) <<< (shift + 8))
      + ((v >>> 16) <<< (shift + 16)) = acc + (v <<< shift) := by
  simp only [and_255_eq_mod, Nat.shiftRight_eq_div_pow, Nat.shiftLeft_eq, pow_add]
  have hid : v % 256 + 2 ^ 8 * (v / 2 ^ 8 % 256) + 2 ^ 16 * (v / 2 ^ 16) = v := by
    have e8 : (2 : Nat) ^ 8 = 256 := by norm_num
    have e16 : (2 : Nat) ^ 16 = 65536 := by norm_num
    rw [e8, e16]
    omega
  conv_rhs => rw [← hid]
  ring

/-- Recomposing a non-terminal three-byte chunk with the decoded rest. -/
theorem recompose4 (acc shift v : Nat) :
    acc + ((v &&& 255) <<< shift) + (((v >>> 8) &&& 255) <<< (shift + 8))
      + (((v >>> 16) &&& 255) <<< (shift + 16)) + ((v >>> 24) <<< (shift + 24))
      = acc + (v <<< shift) := by
  simp only [and_255_eq_mod, Nat.shiftRight_eq_div_pow, Nat.shiftLeft_eq, pow_add]
  have hid : v % 256 + 2 ^ 8 * (v / 2 ^ 8 % 256) + 2 ^ 16 * (v / 2 ^ 16 % 256)
      + 2 ^ 24 * (v / 2 ^ 24) = v := by
    have e8 : (2 : Nat) ^ 8 = 256 := by norm_num
    have e16 : (2 : Nat) ^ 16 = 65536 := by norm_num
    have e24 : (2 : Nat) ^ 24 = 16777216 := by norm_num
    rw [e8, e16, e24]
    omega
  conv_rhs => rw [← hid]
  ring

/-- Round-trip of `write_integer`/`read_integer` along the simulation:
reading from the final buffer at any accumulator and shift returns the
magnitude recomposed at that shift, chunk by chunk. -/
theorem int_core : ∀ v : Nat, ∀ {w : BinaryWriter} {D : List Nat} {r : BinaryReader}
    {f acc shift : Nat},
    WWF w → numChunks v ≤ f → Agrees (write_integer w v) D → Sim D w r →
    ∃ r', readIntF f acc shift r = some (acc + (v <<< shift), r')
      ∧ Sim D (write_integer w v) r' := by
  intro v
  induction v using Nat.strong_induction_on with
  | _ v ih =>
    intro w D r f acc shift hw hf hA hS
    have hnc := numChunks_pos v
    obtain ⟨f, rfl⟩ : ∃ g, f = g + 1 := ⟨f - 1, by omega⟩
    by_cases h1 : v < 256
    · have hwi : write_integer w v = write_byte (write_bits w 2 0) v := by
        unfold write_integer
        rw [writeIntF_succ, if_pos h1]
      rw [hwi] at hA ⊢
      have hA1 : Agrees (write_bits w 2 0) D := Agrees_write_byte hA
      obtain ⟨r1, hsel, hS1⟩ := step_bits hw (by norm_num) (by norm_num)
        (by norm_num : (0 : Nat) < 2 ^ 2) hA1 hS
      have hw1 : WWF (write_bits w 2 0) :=
        WWF_write_bits hw (by norm_num) (by norm_num) (by norm_num)
      obtain ⟨hbyte, hS2⟩ := step_byte hw1 hA hS1
      refine ⟨_, ?_, hS2⟩
      rw [readIntF_succ, hsel]
      simp only []
      rw [if_pos True.intro, hbyte]
    · by_cases h2 : v < 256 * 256
      · have hwi : write_integer w v =
            write_byte (write_byte (write_bits w 2 1) (v &&& 255)) (v >>> 8) := by
          unfold write_integer
          rw [writeIntF_succ, if_neg h1, if_pos h2]
        rw [hwi] at hA ⊢
        have hA2 : Agrees (write_byte (write_bits w 2 1) (v &&& 255)) D := Agrees_write_byte hA
        have hA1 : Agrees (write_bits w 2 1) D := Agrees_write_byte hA2
        obtain ⟨r1, hsel, hS1⟩ := step_bits hw (by norm_num) (by norm_num)
          (by norm_num : (1 : Nat) < 2 ^ 2) hA1 hS
        have hw1 : WWF (write_bits w 2 1) :=
          WWF_write_bits hw (by norm_num) (by norm_num) (by norm_num)
        obtain ⟨hbyte1, hS2⟩ := step_byte hw1 hA2 hS1
        have hw2 : WWF (write_byte (write_bits w 2 1) (v &&& 255)) := WWF_write_byte hw1 _
        obtain ⟨hbyte2, hS3⟩ := step_byte hw2 hA hS2
        refine ⟨_, ?_, hS3⟩
        rw [readIntF_succ, hsel]
        simp only []
        rw [if_neg (by norm_num), if_pos True.intro, hbyte1]
        simp only []
        rw [hbyte2]
        simp only []
        rw [recompose2]
      · by_cases h3 : v < 256 * 256 * 256
        · have hwi : write_integer w v =
              write_byte (write_byte (write_byte (write_bits w 2 2)
                (v &&& 255)) ((v >>> 8) &&& 255)) (v >>> 16) := by
            unfold write_integer
            rw [writeIntF_succ, if_neg h1, if_neg h2, if_pos h3]
          rw [hwi] at hA ⊢
          have hA3 : Agrees (write_byte (write_byte (write_bits w 2 2)
              (v &&& 255)) ((v >>> 8) &&& 255)) D := Agrees_write_byte hA
          have hA2 : Agrees (write_byte (write_bits w 2 2) (v &&& 255)) D :=
            Agrees_write_byte hA3
          have hA1 : Agrees (write_bits w 2 2) D := Agrees_write_byte hA2
          obtain ⟨r1, hsel, hS1⟩ := step_bits hw (by norm_num) (by norm_num)
            (by norm_num : (2 : Nat) < 2 ^ 2) hA1 hS
          have hw1 : WWF (write_bits w 2 2) :=
            WWF_write_bits hw (by norm_num) (by norm_num) (by norm_num)
          obtain ⟨hbyte1, hS2⟩ := step_byte hw1 hA2 hS1
          have hw2 : WWF (write_byte (write_bits w 2 2) (v &&& 255)) := WWF_write_byte hw1 _
          obtain ⟨hbyte2, hS3⟩ := step_byte hw2 hA3 hS2
          have hw3 : WWF (write_byte (write_byte (write_bits w 2 2) (v &&& 255))
              ((v >>> 8) &&& 255)) := WWF_write_byte hw2 _
          obtain ⟨hbyte3, hS4⟩ := step_byte hw3 hA hS3
          refine ⟨_, ?_, hS4⟩
          rw [readIntF_succ, hsel]
          simp only []
          rw [if_neg (by norm_num), if_neg (by norm_num), if_pos True.intro, hbyte1]
          simp only []
          rw [hbyte2]
          simp only []
          rw [hbyte3]
          simp only []
          rw [recompose3]
        · have hlt : v >>> 24 < v := by
            rw [Nat.shiftRight_eq_div_pow]
            exact Nat.div_lt_self (by omega) (by norm_num)
          have hwi : write_integer w v =
              write_integer (write_byte (write_byte (write_byte (write_bits w 2 3)
                (v &&& 255)) ((v >>> 8) &&& 255)) ((v >>> 16) &&& 255)) (v >>> 24) := by
            unfold write_integer
            rw [writeIntF_succ, if_neg h1, if_neg h2, if_neg h3]
            exact writeIntF_fuel (v >>> 24) _ (by omega) (by omega)
          rw [hwi] at hA ⊢
          have hw1 : WWF (write_bits w 2 3) :=
            WWF_write_bits hw (by norm_num) (by norm_num) (by norm_num)
          have hw2 : WWF (write_byte (write_bits w 2 3) (v &&& 255)) := WWF_write_byte hw1 _
          have hw3 : WWF (write_byte (write_byte (write_bits w 2 3) (v &&& 255))
              ((v >>> 8) &&& 255)) := WWF_write_byte hw2 _
          have hw4 : WWF (write_byte (write_byte (write_byte (write_bits w 2 3)
              (v &&& 255)) ((v >>> 8) &&& 255)) ((v >>> 16) &&& 255)) := WWF_write_byte hw3 _
          have hA4 : Agrees (write_byte (write_byte (write_byte (write_bits w 2 3)
              (v &&& 255)) ((v >>> 8) &&& 255)) ((v >>> 16) &&& 255)) D :=
            Agrees_writeIntF (v >>> 24) hw4 (Nat.lt_succ_self _) hA
          have hA3 : Agrees (write_byte (write_byte (write_bits w 2 3)
              (v &&& 255)) ((v >>> 8) &&& 255)) D := Agrees_write_byte hA4
          have hA2 : Agrees (write_byte (write_bits w 2 3) (v &&& 255)) D :=
            Agrees_write_byte hA3
          have hA1 : Agrees (write_bits w 2 3) D := Agrees_write_byte hA2
          obtain ⟨r1, hsel, hS1⟩ := step_bits hw (by norm_num) (by norm_num)
            (by norm_num : (3 : Nat) < 2 ^ 2) hA1 hS
          obtain ⟨hbyte1, hS2⟩ := step_byte hw1 hA2 hS1
          obtain ⟨hbyte2, hS3⟩ := step_byte hw2 hA3 hS2
          obtain ⟨hbyte3, hS4⟩ := step_byte hw3 hA4 hS3
          have hcount : numChunks (v >>> 24) ≤ f := by
            rw [numChunks_ge h3] at hf
            omega
          obtain ⟨r', hrec, hS'⟩ := ih _ hlt hw4 hcount hA hS4
          refine ⟨r', ?_, hS'⟩
          rw [readIntF_succ, hsel]
          simp only []
          rw [if_neg (by norm_num), if_neg (by norm_num), if_neg (by norm_num), hbyte1]
          simp only []
          rw [hbyte2]
          simp only []
          rw [hbyte3]
          simp only []
          rw [hrec, recompose4]

/-- C2: for every non-negative magnitude `v`, `read_integer` applied to the
bytes emitted by `write_integer v` (from a fresh writer, finalized) returns
exactly `v`; moreover each boundary magnitude 0, 255, 256, 65535, 65536,
16777215, 16777216, 16777217 produces the expected chunk encoding,
exercising selectors 0, 1, 2 and the 3-continuation at shift 24. -/
theorem claim_C2_integer_roundtrip :
    (∀ v : Nat, ∃ r',
      read_integer (BinaryReader.init (finalize (write_integer BinaryWriter.init v)).data)
        = some (v, r'))
    ∧ (finalize (write_integer BinaryWriter.init 0)).data = [0, 0]
    ∧ (finalize (write_integer BinaryWriter.init 255)).data = [0, 255]
    ∧ (finalize (write_integer BinaryWriter.init 256)).data = [1, 0, 1]
    ∧ (finalize (write_integer BinaryWriter.init 65535)).data = [1, 255, 255]
    ∧ (finalize (write_integer BinaryWriter.init 65536)).data = [2, 0, 0, 1]
    ∧ (finalize (write_integer BinaryWriter.init 16777215)).data = [2, 255, 255, 255]
    ∧ (finalize (write_integer BinaryWriter.init 16777216)).data = [3, 0, 0, 0, 1]
    ∧ (finalize (write_integer BinaryWriter.init 16777217)).data = [3, 1, 0, 0, 1] := by
  refine ⟨?_, rfl, rfl, rfl, rfl, rfl, rfl, rfl, rfl⟩
  intro v
  have hw0 : WWF (write_integer BinaryWriter.init v) :=
    WWF_writeIntF v _ WWF_init (Nat.lt_succ_self v)
  have hA : Agrees (write_integer BinaryWriter.init v)
      (finalize (write_integer BinaryWriter.init v)).data :=
    Agrees_finalize hw0 (Agrees_self (finalize_bitShift _))
  have hS := Sim_init (finalize (write_integer BinaryWriter.init v)).data
  have hfuel : numChunks v ≤ (finalize (write_integer BinaryWriter.init v)).data.length + 1 := by
    have h1 : BinaryWriter.init.data.length + numChunks v
        ≤ (write_integer BinaryWriter.init v).data.length :=
      writeIntF_length v BinaryWriter.init (Nat.lt_succ_self v)
    have h2 : (finalize (write_integer BinaryWriter.init v)).data.length
        = (write_integer BinaryWriter.init v).data.length := finalize_length _
    have h3 : BinaryWriter.init.data.length = 0 := rfl
    omega
  obtain ⟨r', hread, _⟩ := int_core v WWF_init hfuel hA hS
  refine ⟨r', ?_⟩
  show readIntF ((finalize (write_integer BinaryWriter.init v)).data.length + 1) 0 0
      (BinaryReader.init (finalize (write_integer BinaryWriter.init v)).data) = _
  rw [hread]
  simp

/-- C1: round-trip `decode(encode(v)) == v` fails on the code for the
JSON-constructible value `{"": 1}`: the empty-string key is falsy, so the
generic map decoder drops the entry and never consumes the value's bytes;
the decoder returns `{}`, not `{"": 1}`. (The spec itself flags the
falsy-key skip as a defect, so the round-trip claim is taken as the intent
and this is a code bug.) -/
theorem claim_C1_roundtrip_fails_on_falsy_key :
    jsonDecode (jsonEncode (.dict [(.str [], .int 1)])) = some (.dict [])
    ∧ jsonDecode (jsonEncode (.dict [(.str [], .int 1)])) ≠
        some (.dict [(.str [], .int 1)]) := by
  refine ⟨rfl, ?_⟩
  rw [show jsonDecode (jsonEncode (.dict [(.str [], .int 1)])) = some (.dict []) from rfl]
  simp

/-- C3: every type-tag code 0–10 written with the width-3/step-0
variable-width field round-trips through `read_variable_bits`, and for
codes 7–10 the encoding is exactly the all-ones sentinel chunk `7`
followed by the terminal chunk `c - 7`, from any writer state. -/
theorem claim_C3_type_tag_roundtrip_and_decomposition :
    (∀ c, c < 11 →
      (read_type (BinaryReader.init (finalize (write_type BinaryWriter.init c)).data)).map
        (fun p => p.1) = some c)
    ∧ (∀ (w : BinaryWriter) (c : Nat), 7 ≤ c → c ≤ 10 →
        write_variable_bits w 3 0 c = write_bits (write_bits w 3 7) 3 (c - 7)) := by
  refine ⟨by decide, ?_⟩
  intro w c h7 h10
  interval_cases c <;> rfl

/-- Witness for C3 at the concrete code 10: round-trip and the
sentinel-then-remainder decomposition `[7, 3]`. -/
theorem claim_C3_witness :
    (read_type (BinaryReader.init (finalize (write_type BinaryWriter.init 10)).data)).map
      (fun p => p.1) = some 10
    ∧ write_variable_bits BinaryWriter.init 3 0 10 =
        write_bits (write_bits BinaryWriter.init 3 7) 3 3 :=
  ⟨claim_C3_type_tag_roundtrip_and_decomposition.1 10 (by decide),
   claim_C3_type_tag_roundtrip_and_decomposition.2 BinaryWriter.init 10 (by decide) (by decide)⟩

/-- C5: whenever a map entry's key decodes to a falsy value, the generic
map-decoding loop continues directly at the reader state left by the key,
never decoding the value (its bytes stay unconsumed); concretely, decoding
the encoding of `{"": 1, "a": 2}` desynchronizes the cursor: the skipped
value `1` is misread as the next key and `"a"` as its value, giving
`{1: "a"}`. -/
theorem claim_C5_falsy_key_skips_value :
    (∀ (dec : BinaryReader → Option (PyVal × BinaryReader)) n m r k r',
        dec r = some (k, r') → truthy k = false →
        decodeMapSeq dec (n + 1) m r = decodeMapSeq dec n m r')
    ∧ jsonDecode (jsonEncode (.dict [(.str [], .int 1), (.str [97], .int 2)]))
        = some (.dict [(.int 1, .str [97])]) := by
  refine ⟨?_, rfl⟩
  intro dec n m r k r' hdec hfalsy
  simp [decodeMapSeq, hdec, hfalsy]

/-- Witness for C5: the JSON field decoder on buffer `[0]` decodes the
falsy key `None`, and the map loop proceeds without decoding a value. -/
theorem claim_C5_witness :
    decodeMapSeq (jsonDecodeF 8 Option.none) 1 [] (BinaryReader.init [0])
      = decodeMapSeq (jsonDecodeF 8 Option.none) 0 [] ⟨[0], 1, 0, 3, []⟩ :=
  claim_C5_falsy_key_skips_value.1 (jsonDecodeF 8 Option.none) 0 []
    (BinaryReader.init [0]) PyVal.none ⟨[0], 1, 0, 3, []⟩ rfl rfl

/-- C6 (amended): an unrecognized type tag, a byte-wise read past the end
of the buffer, an out-of-range string back-reference, and invalid UTF-8
string bytes each surface an error; but truncation that falls inside a
length-prefixed byte-slice payload is not covered here because the slice
silently yields the available bytes (see the counterexample). -/
theorem claim_C6_malformed_inputs_error :
    (∀ fuel r t, 10 < t → jsonDecodeF (fuel + 1) (some t) r = Option.none)
    ∧ (∀ r : BinaryReader, r.data.length ≤ r.position → read_byte r = Option.none)
    ∧ (∀ r : BinaryReader, r.data.length < r.position + 8 → read_ieee754_2_64 r = Option.none)
    ∧ (∀ r r1 i r2, read_bit r = some (1, r1) → read_integer r1 = some (i, r2) →
        r2.strings.length ≤ i → read_string r = Option.none)
    ∧ (∀ r r1 n r2, read_bit r = some (0, r1) → read_integer r1 = some (n, r2) →
        utf8Valid ((r2.data.drop r2.position).take n) = false →
        read_string r = Option.none) := by
  refine ⟨?_, ?_, ?_, ?_, ?_⟩
  · intro fuel r t ht
    have h0 : t ≠ 0 := by omega
    have h1 : t ≠ 1 := by omega
    have h2 : t ≠ 2 := by omega
    have h3 : t ≠ 3 := by omega
    have h4 : t ≠ 4 := by omega
    have h5 : t ≠ 5 := by omega
    have h6 : t ≠ 6 := by omega
    have h7 : t ≠ 7 := by omega
    have h8 : t ≠ 8 := by omega
    have h9 : t ≠ 9 := by omega
    have h10 : t ≠ 10 := by omega
    simp [jsonDecodeF_succ, jsonDecodeBody, h0, h1, h2, h3, h4, h5, h6, h7, h8, h9, h10]
  · intro r h
    simp [read_byte, List.getElem?_eq_none h]
  · intro r h
    simp only [read_ieee754_2_64]
    rw [if_neg (by omega)]
  · intro r r1 i r2 hbit hint hlen
    simp [read_string, hbit, hint, List.getElem?_eq_none hlen]
  · intro r r1 n r2 hbit hint hbad
    simp [read_string, hbit, hint, read_bytes, hbad]

/-- Witness for C6: concrete malformed buffers for each error class
(tag 11; empty buffer; back-reference index 5 into an empty table; a
lone-continuation-byte string payload). -/
theorem claim_C6_witness :
    jsonDecodeF 1 (some 11) (BinaryReader.init []) = Option.none
    ∧ read_byte (BinaryReader.init []) = Option.none
    ∧ read_ieee754_2_64 (BinaryReader.init []) = Option.none
    ∧ read_string (BinaryReader.init [1, 5]) = Option.none
    ∧ read_string (BinaryReader.init [0, 1, 128]) = Option.none :=
  ⟨claim_C6_malformed_inputs_error.1 0 (BinaryReader.init []) 11 (by decide),
   claim_C6_malformed_inputs_error.2.1 (BinaryReader.init []) (by decide),
   claim_C6_malformed_inputs_error.2.2.1 (BinaryReader.init []) (by decide),
   claim_C6_malformed_inputs_error.2.2.2.1 (BinaryReader.init [1, 5])
     ⟨[1, 5], 1, 1, 1, []⟩ 5 ⟨[1, 5], 2, 1, 3, []⟩ rfl rfl (by decide),
   claim_C6_malformed_inputs_error.2.2.2.2 (BinaryReader.init [0, 1, 128])
     ⟨[0, 1, 128], 1, 0, 1, []⟩ 1 ⟨[0, 1, 128], 2, 0, 3, []⟩ rfl rfl (by decide)⟩

/-- C6 counterexample: a truncated stream is NOT always an error — the
encoding of `Bytes([1,2,3,4,5])` cut to its first 4 bytes decodes without
error to `Bytes([1,2])`, because the payload slice silently yields only
the available bytes. -/
theorem claim_C6_counterexample_truncated_slice :
    jsonEncode (.bytes [1, 2, 3, 4, 5]) = [4, 5, 1, 2, 3, 4, 5]
    ∧ jsonDecode (List.take 4 (jsonEncode (.bytes [1, 2, 3, 4, 5]))) = some (.bytes [1, 2])
    ∧ jsonDecode (List.take 4 (jsonEncode (.bytes [1, 2, 3, 4, 5]))) ≠ Option.none := by
  refine ⟨rfl, rfl, ?_⟩
  rw [show jsonDecode (List.take 4 (jsonEncode (.bytes [1, 2, 3, 4, 5])))
      = some (.bytes [1, 2]) from rfl]
  simp

/-- C7: encoding `["x", "x", "y", "x"]` stores the byte `0x78` of `"x"`
(and `0x79` of `"y"`) exactly once in the buffer, registers the distinct
strings in first-seen order, decodes back to the same list, and — in
general — a previously seen string is written as the set flag bit plus
the chunked index of its first occurrence. -/
theorem claim_C7_string_dedup :
    jsonDecode (jsonEncode (.list [.str [120], .str [120], .str [121], .str [120]]))
      = some (.list [.str [120], .str [120], .str [121], .str [120]])
    ∧ jsonEncode (.list [.str [120], .str [120], .str [121], .str [120]])
      = [166, 4, 104, 1, 120, 138, 0, 1, 121, 6, 0]
    ∧ (jsonEncode (.list [.str [120], .str [120], .str [121], .str [120]])).count 120 = 1
    ∧ (jsonEncode (.list [.str [120], .str [120], .str [121], .str [120]])).count 121 = 1
    ∧ (encode_field BinaryWriter.init
        (.list [.str [120], .str [120], .str [121], .str [120]])).strings = [[120], [121]]
    ∧ (∀ (w : BinaryWriter) (s : List Nat), s ∈ w.strings →
        write_string w s = write_integer (write_bit w 1) (w.strings.indexOf s)) := by
  refine ⟨rfl, rfl, rfl, rfl, rfl, ?_⟩
  intro w s hs
  simp [write_string, hs]

/-- Witness for C7: after encoding one `"x"`, writing `"x"` again emits
the indexed form with index 0. -/
theorem claim_C7_witness :
    write_string (encode_field BinaryWriter.init (.str [120])) [120]
      = write_integer (write_bit (encode_field BinaryWriter.init (.str [120])) 1)
          ((encode_field BinaryWriter.init (.str [120])).strings.indexOf [120]) :=
  claim_C7_string_dedup.2.2.2.2.2 (encode_field BinaryWriter.init (.str [120])) [120]
    (by decide)

/-- Decoding the first `("a", 1)` entry of the duplicate-key map buffer:
the key and value are decoded and inserted fresh. -/
theorem mapFanoutStep1 :
    decodeMapSeq (jsonDecodeF 87 Option.none) 2 [] ⟨[15, 2, 133, 1, 97, 208, 1, 8, 0, 2], 2, 0, 0, []⟩
    = decodeMapSeq (jsonDecodeF 87 Option.none) 1 [(.str [97], .int 1)]
        ⟨[15, 2, 133, 1, 97, 208, 1, 8, 0, 2], 7, 208, 4, [[97]]⟩ := by
  rw [show (2 : Nat) = 1 + 1 from rfl, decodeMapSeq_succ,
      show jsonDecodeF 87 Option.none ⟨[15, 2, 133, 1, 97, 208, 1, 8, 0, 2], 2, 0, 0, []⟩
        = some (.str [97], ⟨[15, 2, 133, 1, 97, 208, 1, 8, 0, 2], 5, 133, 6, [[97]]⟩) from rfl]
  simp only [show truthy (PyVal.str [97]) = true from rfl, if_true]
  rw [show jsonDecodeF 87 Option.none ⟨[15, 2, 133, 1, 97, 208, 1, 8, 0, 2], 5, 133, 6, [[97]]⟩
      = some (.int 1, ⟨[15, 2, 133, 1, 97, 208, 1, 8, 0, 2], 7, 208, 4, [[97]]⟩) from rfl]
  simp only []
  rw [show dictInsert [] (PyVal.str [97]) (PyVal.int 1) = [(.str [97], .int 1)] from rfl]

/-- Decoding the second `("a", 2)` entry: the key arrives as a string
back-reference, and `dictInsert` promotes the existing value to the
ordered list `[1, 2]`. -/
theorem mapFanoutStep2 :
    decodeMapSeq (jsonDecodeF 87 Option.none) 1 [(.str [97], .int 1)]
      ⟨[15, 2, 133, 1, 97, 208, 1, 8, 0, 2], 7, 208, 4, [[97]]⟩
    = some ([(.str [97], .list [.int 1, .int 2])], ⟨[15, 2, 133, 1, 97, 208, 1, 8, 0, 2], 10, 0, 0, [[97]]⟩) := by
  rw [show (1 : Nat) = 0 + 1 from rfl, decodeMapSeq_succ,
      show jsonDecodeF 87 Option.none ⟨[15, 2, 133, 1, 97, 208, 1, 8, 0, 2], 7, 208, 4, [[97]]⟩
        = some (.str [97], ⟨[15, 2, 133, 1, 97, 208, 1, 8, 0, 2], 9, 8, 2, [[97]]⟩) from rfl]
  simp only [show truthy (PyVal.str [97]) = true from rfl, if_true]
  rw [show jsonDecodeF 87 Option.none ⟨[15, 2, 133, 1, 97, 208, 1, 8, 0, 2], 9, 8, 2, [[97]]⟩
      = some (.int 2, ⟨[15, 2, 133, 1, 97, 208, 1, 8, 0, 2], 10, 0, 0, [[97]]⟩) from rfl]
  simp only []
  rw [show dictInsert [(PyVal.str [97], PyVal.int 1)] (PyVal.str [97]) (PyVal.int 2)
      = [(.str [97], .list [.int 1, .int 2])] from rfl]
  rfl

/-- Full decode of the duplicate-key map buffer. -/
theorem mapFanoutDecode :
    jsonDecodeF 88 Option.none (BinaryReader.init [15, 2, 133, 1, 97, 208, 1, 8, 0, 2])
    = some (.dict [(.str [97], .list [.int 1, .int 2])],
        ⟨[15, 2, 133, 1, 97, 208, 1, 8, 0, 2], 10, 0, 0, [[97]]⟩) := by
  rw [show (88 : Nat) = 87 + 1 from rfl, jsonDecodeF_succ]
  simp only [jsonDecodeBody]
  rw [show read_type (BinaryReader.init [15, 2, 133, 1, 97, 208, 1, 8, 0, 2])
      = some (8, ⟨[15, 2, 133, 1, 97, 208, 1, 8, 0, 2], 1, 15, 6, []⟩) from rfl]
  simp only []
  rw [if_neg (show ¬(8 = 9) from by decide), if_neg (show ¬(8 = 0) from by decide),
      if_neg (show ¬(8 = 1) from by decide), if_neg (show ¬(8 = 2) from by decide),
      if_neg (show ¬(8 = 3) from by decide), if_neg (show ¬(8 = 4) from by decide),
      if_neg (show ¬(8 = 5) from by decide), if_neg (show ¬(8 = 10) from by decide),
      if_neg (show ¬(8 = 6) from by decide), if_neg (show ¬(8 = 7) from by decide),
      if_pos True.intro]
  rw [show read_integer ⟨[15, 2, 133, 1, 97, 208, 1, 8, 0, 2], 1, 15, 6, []⟩
      = some (2, ⟨[15, 2, 133, 1, 97, 208, 1, 8, 0, 2], 2, 0, 0, []⟩) from rfl]
  simp only []
  rw [mapFanoutStep1, mapFanoutStep2]

/-- C8: decoding a map with two entries both keyed `"a"` (values 1 and 2)
yields `"a" ↦ [1, 2]` — the first value promoted to an ordered list with
the second appended — not last-write-wins `"a" ↦ 2`. -/
theorem claim_C8_duplicate_key_fanout :
    jsonDecode (jsonEncode (.dict [(.str [97], .int 1), (.str [97], .int 2)]))
      = some (.dict [(.str [97], .list [.int 1, .int 2])])
    ∧ jsonDecode (jsonEncode (.dict [(.str [97], .int 1), (.str [97], .int 2)]))
        ≠ some (.dict [(.str [97], .int 2)]) := by
  have h : jsonDecode (jsonEncode (.dict [(.str [97], .int 1), (.str [97], .int 2)]))
      = some (.dict [(.str [97], .list [.int 1, .int 2])]) := by
    rw [show jsonEncode (.dict [(.str [97], .int 1), (.str [97], .int 2)])
        = [15, 2, 133, 1, 97, 208, 1, 8, 0, 2] from rfl]
    simp only [jsonDecode]
    rw [show (8 * List.length [15, 2, 133, 1, 97, 208, 1, 8, 0, 2] + 8 : Nat) = 88 from rfl,
        mapFanoutDecode]
    rfl
  refine ⟨h, ?_⟩
  rw [h]
  simp

/-- C9 (amended): of the four kinds the tabular adapter cannot represent,
only `Map` makes the CSV decoder raise; a `Properties` block is decoded
and discarded (the following value is returned), a `Comment` is consumed
and yields `None`, and `Bytes` is returned as the raw bytes object. -/
theorem claim_C9_csv_raises_only_on_map :
    (∀ fuel r, csvDecodeF (fuel + 1) (some 8) r = Option.none)
    ∧ csvDecode (finalize (write_string (write_type BinaryWriter.init 10) [104, 105])).data
        = some PyVal.none
    ∧ csvDecode (jsonEncode (.bytes [7])) = some (.bytes [7])
    ∧ csvDecode (finalize (encode_field (encode_field (encode_field
        (write_integer (write_type BinaryWriter.init 9) 1)
        (.str [107])) (.str [118])) (.int 3))).data = some (.int 3) := by
  refine ⟨?_, rfl, rfl, rfl⟩
  intro fuel r
  simp [csvDecodeF_succ, csvDecodeBody]

/-- C9 counterexample: the CSV decoder does not raise on `Comment` — the
encoding of a comment node decodes without error (to `None`); likewise
`Bytes` decodes without error. This refutes "raises on encountering any
of Map/Properties/Comment/Bytes". -/
theorem claim_C9_counterexample_comment_accepted :
    csvDecode (finalize (write_string (write_type BinaryWriter.init 10) [104, 105])).data
      ≠ Option.none
    ∧ csvDecode (jsonEncode (.bytes [7])) ≠ Option.none := by
  constructor
  · rw [show csvDecode (finalize (write_string (write_type BinaryWriter.init 10)
        [104, 105])).data = some PyVal.none from rfl]
    simp
  · rw [show csvDecode (jsonEncode (.bytes [7])) = some (.bytes [7]) from rfl]
    simp

/-- C10: the JSON and CSV decoders test a supplied tag with Python
truthiness, so an explicit `TYPE_EMPTY` (0) tag behaves exactly like no
tag at all (a fresh tag is read from the stream), whereas
`XMLDecoder.decode_field` compares against `None` and honours the
supplied `Empty` tag without touching the stream; consequently a
`UniformList` of declared element kind `Empty` (buffer `[7, 0, 2]`) is
not decoded element-wise by the JSON decoder — it errors instead of
returning `[None, None]`. -/
theorem claim_C10_empty_tag_treated_as_absent :
    (∀ fuel r, jsonDecodeF fuel (some 0) r = jsonDecodeF fuel Option.none r)
    ∧ (∀ fuel r, csvDecodeF fuel (some 0) r = csvDecodeF fuel Option.none r)
    ∧ (∀ r, xmlDecodeField (some 0) r = some (PyVal.none, r))
    ∧ jsonDecode [7, 0, 2] = Option.none
    ∧ jsonDecode [7, 0, 2] ≠ some (.list [PyVal.none, PyVal.none]) := by
  refine ⟨?_, ?_, ?_, rfl, ?_⟩
  · intro fuel r
    cases fuel <;> rfl
  · intro fuel r
    cases fuel <;> rfl
  · intro r
    rfl
  · rw [show jsonDecode [7, 0, 2] = Option.none from rfl]
    simp

/-- C4 counterexample: for a value wider than its declared width the
read-back is NOT the value's low bits — writing value 2 in a 1-bit field
pollutes the neighbouring pending bit, so the next 1-bit field reads 1
although 0 was written: the sequence `[(1,2),(1,0)]` reads back `[0, 1]`,
not the low bits `[0, 0]`. -/
theorem claim_C4_counterexample_unmasked_value :
    (readBitsList (BinaryReader.init
        (finalize (writeBitsList BinaryWriter.init [(1, 2), (1, 0)])).data) [1, 1]).map Prod.fst
      = some [0, 1]
    ∧ some [0, 1] ≠ some [2 % 2 ^ 1, 0 % 2 ^ 1] := by
  refine ⟨rfl, ?_⟩
  simp

/-- C4 (amended): for every sequence of `(width, value)` pairs with each
width between 1 and 7 and each value fitting its width (`value < 2 ^
width` — the writer does not mask, so this is required), writing them with
`write_bits` and finalizing produces a buffer from which `read_bits` with
the same widths returns exactly the written values in order; and
`finalize` flushes a non-empty pending partial byte with its unused high
bits zero (the stored byte is the pending bits themselves, below
`2 ^ bitShift`). -/
theorem claim_C4_bits_roundtrip :
    ∀ ps : List (Nat × Nat), (∀ p ∈ ps, 1 ≤ p.1 ∧ p.1 ≤ 7 ∧ p.2 < 2 ^ p.1) →
      ((readBitsList (BinaryReader.init
          (finalize (writeBitsList BinaryWriter.init ps)).data)
          (ps.map Prod.fst)).map Prod.fst = some (ps.map Prod.snd)
      ∧ ((writeBitsList BinaryWriter.init ps).bitShift ≠ 0 →
          (finalize (writeBitsList BinaryWriter.init ps)).data[(writeBitsList
            BinaryWriter.init ps).bitWritePos]?
            = some (writeBitsList BinaryWriter.init ps).bits
          ∧ (writeBitsList BinaryWriter.init ps).bits
            < 2 ^ (writeBitsList BinaryWriter.init ps).bitShift)) := by
  intro ps hg
  have hw : WWF (writeBitsList BinaryWriter.init ps) := WWF_writeBitsList WWF_init hg
  obtain ⟨hbits, hshift, hpos⟩ := hw
  have hfin0 : (finalize (writeBitsList BinaryWriter.init ps)).bitShift = 0 := by
    unfold finalize
    by_cases h : (writeBitsList BinaryWriter.init ps).bitShift > 0
    · rw [if_pos h]
    · rw [if_neg h]
      omega
  have hAfin : Agrees (finalize (writeBitsList BinaryWriter.init ps))
      (finalize (writeBitsList BinaryWriter.init ps)).data := Agrees_self hfin0
  have hA : Agrees (writeBitsList BinaryWriter.init ps)
      (finalize (writeBitsList BinaryWriter.init ps)).data :=
    Agrees_finalize ⟨hbits, hshift, hpos⟩ hAfin
  have hA0 : Agrees BinaryWriter.init (finalize (writeBitsList BinaryWriter.init ps)).data :=
    Agrees_writeBitsList WWF_init hg hA
  obtain ⟨r', hread, _⟩ := bitsList_core WWF_init hg hA
    (Sim_init (finalize (writeBitsList BinaryWriter.init ps)).data)
  constructor
  · rw [hread]
    rfl
  · intro hne
    have hplt : (writeBitsList BinaryWriter.init ps).bitWritePos
        < (writeBitsList BinaryWriter.init ps).data.length := hpos hne
    have hblt : (writeBitsList BinaryWriter.init ps).bits < 256 := by
      have h2 : (2 : Nat) ^ (writeBitsList BinaryWriter.init ps).bitShift ≤ 2 ^ 8 :=
        Nat.pow_le_pow_right (by omega) (by omega)
      norm_num at h2
      omega
    constructor
    · show (finalize (writeBitsList BinaryWriter.init ps)).data[(writeBitsList
        BinaryWriter.init ps).bitWritePos]? = some (writeBitsList BinaryWriter.init ps).bits
      unfold finalize
      rw [if_pos (by omega)]
      show ((writeBitsList BinaryWriter.init ps).data.set
          (writeBitsList BinaryWriter.init ps).bitWritePos
          ((writeBitsList BinaryWriter.init ps).bits &&& 255))[(writeBitsList
            BinaryWriter.init ps).bitWritePos]?
        = some (writeBitsList BinaryWriter.init ps).bits
      rw [List.getElem?_set_self hplt, and_255_eq_mod, Nat.mod_eq_of_lt hblt]
    · exact hbits

/-- Witness for C4 at the concrete sequence `[(3,5),(7,100),(1,1)]`. -/
theorem claim_C4_witness :
    (readBitsList (BinaryReader.init
        (finalize (writeBitsList BinaryWriter.init [(3, 5), (7, 100), (1, 1)])).data)
        ([(3, 5), (7, 100), (1, 1)].map Prod.fst)).map Prod.fst
      = some ([((3 : Nat), (5 : Nat)), (7, 100), (1, 1)].map Prod.snd) :=
  (claim_C4_bits_roundtrip [(3, 5), (7, 100), (1, 1)] (by decide)).1
